import Mathlib

/-!
Verification of the obsidian-djvu-reader plugin core against its
natural-language specification.

The development shallowly embeds the plugin's TypeScript source:

* the locator codec of `DjvuView.setEphemeralState` (decode) and
  `DjvuView.showSelectionContextMenu` (encode), including faithful models
  of the JavaScript primitives `encodeURIComponent`, `decodeURIComponent`,
  `escape`, `unescape`, `btoa` and `atob` that the code composes;
* the position store of `DjVuReaderPlugin` (`getFilePage` / `setFilePage`);
* the page-resolution logic of `DjvuView.onLoadFile` and `DjvuView.render`;
* the session / sequence-number machinery of `DjvuView.render`,
  `DjvuView.cleanup` and the message handler;
* the fuzzy highlighter `highlightText` / `tryHighlight` embedded in the
  iframe document built by `DjvuView.buildIframeSrcdoc`;
* the citation builder of `DjvuView.showSelectionContextMenu`.

Strings are modelled as `List Char` (Lean chars are exactly the Unicode
scalar values, matching well-formed JavaScript strings); bytes as `Nat`
values below 256.  Fallible JavaScript operations (throwing `URIError`,
`InvalidCharacterError`, ...) are modelled with `Option`.
-/

namespace DjvuReader

/-! ## Small character utilities -/

/-- ASCII decimal digit test, as used by the regex class `\d`. -/
def isDigitChar (c : Char) : Bool :=
  48 ≤ c.toNat && c.toNat ≤ 57

/-- Value of an ASCII decimal digit. -/
def digitVal (c : Char) : Nat := c.toNat - 48

/-- The ASCII character of a decimal digit value. -/
def digitChar (n : Nat) : Char := Char.ofNat (48 + n)

/-- Uppercase hexadecimal digit for a value below 16 (as emitted by
`encodeURIComponent` / `escape`). -/
def hexDigitChar (n : Nat) : Char :=
  if n < 10 then Char.ofNat (48 + n) else Char.ofNat (55 + n)

/-- Value of a hexadecimal digit, either case (as accepted by
`decodeURIComponent` / `unescape`). -/
def hexVal (c : Char) : Option Nat :=
  if 48 ≤ c.toNat ∧ c.toNat ≤ 57 then some (c.toNat - 48)
  else if 65 ≤ c.toNat ∧ c.toNat ≤ 70 then some (c.toNat - 55)
  else if 97 ≤ c.toNat ∧ c.toNat ≤ 102 then some (c.toNat - 87)
  else none

/-- Two hex digits to a byte. -/
def hexPairVal (h1 h2 : Char) : Option Nat :=
  match hexVal h1, hexVal h2 with
  | some a, some b => some (16 * a + b)
  | _, _ => none

theorem hexVal_hexDigitChar (n : Nat) (h : n < 16) :
    hexVal (hexDigitChar n) = some n := by
  interval_cases n <;> decide

theorem hexPairVal_split (b : Nat) (h : b < 256) :
    hexPairVal (hexDigitChar (b / 16)) (hexDigitChar (b % 16)) = some b := by
  have h1 : b / 16 < 16 := by omega
  have h2 : b % 16 < 16 := by omega
  simp [hexPairVal, hexVal_hexDigitChar _ h1, hexVal_hexDigitChar _ h2]
  omega

/-! ## UTF-8 encoding and decoding

`encodeURIComponent` percent-escapes the UTF-8 bytes of a character and
`decodeURIComponent` strictly decodes maximal escape runs as UTF-8
(throwing on malformed sequences).  We model the byte level here. -/

/-- UTF-8 encoding of one Unicode scalar value. -/
def utf8EncodeScalar (n : Nat) : List Nat :=
  if n < 0x80 then [n]
  else if n < 0x800 then [0xC0 + n / 0x40, 0x80 + n % 0x40]
  else if n < 0x10000 then
    [0xE0 + n / 0x1000, 0x80 + n / 0x40 % 0x40, 0x80 + n % 0x40]
  else
    [0xF0 + n / 0x40000, 0x80 + n / 0x1000 % 0x40,
     0x80 + n / 0x40 % 0x40, 0x80 + n % 0x40]

/-- UTF-8 bytes of a string. -/
def utf8Bytes (s : List Char) : List Nat :=
  s.flatMap (fun c => utf8EncodeScalar c.toNat)

/-- A UTF-8 continuation byte. -/
def isCont (b : Nat) : Bool := 0x80 ≤ b && b < 0xC0

/-- Strict decoding of one UTF-8 sequence from the front of a byte list,
returning the scalar value and the remaining bytes.  Rejects overlong
encodings, surrogates, out-of-range code points and truncated sequences,
as the ECMAScript `Decode` operation does. -/
def utf8DecodeOne : List Nat → Option (Nat × List Nat)
  | [] => none
  | b :: bs =>
    if b < 0x80 then some (b, bs)
    else if b < 0xC2 then none
    else if b < 0xE0 then
      match bs with
      | b2 :: bs2 =>
        if isCont b2 then some ((b - 0xC0) * 0x40 + (b2 - 0x80), bs2) else none
      | [] => none
    else if b < 0xF0 then
      match bs with
      | b2 :: b3 :: bs3 =>
        if isCont b2 && isCont b3 then
          let n := (b - 0xE0) * 0x1000 + (b2 - 0x80) * 0x40 + (b3 - 0x80)
          if 0x800 ≤ n ∧ ¬(0xD800 ≤ n ∧ n ≤ 0xDFFF) then some (n, bs3) else none
        else none
      | _ => none
    else if b < 0xF5 then
      match bs with
      | b2 :: b3 :: b4 :: bs4 =>
        if isCont b2 && isCont b3 && isCont b4 then
          let n := (b - 0xF0) * 0x40000 + (b2 - 0x80) * 0x1000 +
            (b3 - 0x80) * 0x40 + (b4 - 0x80)
          if 0x10000 ≤ n ∧ n < 0x110000 then some (n, bs4) else none
        else none
      | _ => none
    else none

theorem utf8DecodeOne_length (l : List Nat) (n : Nat) (rest : List Nat)
    (h : utf8DecodeOne l = some (n, rest)) : rest.length < l.length := by
  match l with
  | [] => simp [utf8DecodeOne] at h
  | b :: bs =>
    simp only [utf8DecodeOne] at h
    repeat' split at h
    all_goals simp_all
    all_goals omega

/-- Strict UTF-8 decoding of a byte list, fuelled (structural) so that
concrete instances evaluate. -/
def utf8DecodeBytesFuel : Nat → List Nat → Option (List Nat)
  | _, [] => some []
  | 0, _ :: _ => none
  | fuel + 1, b :: bs =>
    match utf8DecodeOne (b :: bs) with
    | some (n, rest) => (utf8DecodeBytesFuel fuel rest).map (n :: ·)
    | none => none

/-- Strict UTF-8 decoding of a whole byte list to scalar values. -/
def utf8DecodeBytes (l : List Nat) : Option (List Nat) :=
  utf8DecodeBytesFuel l.length l

theorem utf8DecodeBytesFuel_mono (f1 : Nat) :
    ∀ (f2 : Nat) (l : List Nat), l.length ≤ f1 → l.length ≤ f2 →
      utf8DecodeBytesFuel f1 l = utf8DecodeBytesFuel f2 l := by
  induction f1 using Nat.strong_induction_on with
  | _ f1 ih =>
    intro f2 l h1 h2
    match l with
    | [] =>
      cases f1 <;> cases f2 <;> rfl
    | b :: bs =>
      match f1, f2 with
      | g1 + 1, g2 + 1 =>
        rw [utf8DecodeBytesFuel, utf8DecodeBytesFuel]
        cases hone : utf8DecodeOne (b :: bs) with
        | none => rfl
        | some p =>
          obtain ⟨n, rest⟩ := p
          have hl : (b :: bs).length = bs.length + 1 := by simp
          have hlen : rest.length ≤ bs.length := by
            have := utf8DecodeOne_length (b :: bs) n rest hone
            simp at this
            omega
          simp only []
          rw [ih g1 (by omega) g2 rest (by omega) (by omega)]

/-- A Unicode scalar value (what a Lean `Char` carries, and what a
well-formed JavaScript string yields at `encodeURIComponent` time). -/
def isScalar (n : Nat) : Prop :=
  n < 0x110000 ∧ ¬(0xD800 ≤ n ∧ n ≤ 0xDFFF)

theorem utf8DecodeBytes_nil : utf8DecodeBytes [] = some [] := rfl

theorem utf8DecodeBytes_of_one (l : List Nat) (n : Nat) (rest : List Nat)
    (h : utf8DecodeOne l = some (n, rest)) :
    utf8DecodeBytes l = (utf8DecodeBytes rest).map (n :: ·) := by
  match l with
  | [] => simp [utf8DecodeOne] at h
  | b :: bs =>
    have hl : (b :: bs).length = bs.length + 1 := by simp
    have hlen : rest.length ≤ bs.length := by
      have := utf8DecodeOne_length (b :: bs) n rest h
      simp at this
      omega
    rw [utf8DecodeBytes, utf8DecodeBytes]
    rw [hl, utf8DecodeBytesFuel, h]
    simp only []
    rw [utf8DecodeBytesFuel_mono bs.length rest.length rest hlen (le_refl _)]

theorem utf8DecodeOne_encode (n : Nat) (hn : isScalar n) (rest : List Nat) :
    utf8DecodeOne (utf8EncodeScalar n ++ rest) = some (n, rest) := by
  obtain ⟨hlt, hsur⟩ := hn
  by_cases h1 : n < 0x80
  · rw [utf8EncodeScalar, if_pos h1]
    simp only [List.cons_append, List.nil_append, utf8DecodeOne]
    rw [if_pos h1]
  · by_cases h2 : n < 0x800
    · rw [utf8EncodeScalar, if_neg h1, if_pos h2]
      have e4 : isCont (0x80 + n % 0x40) = true := by
        simp [isCont]; omega
      simp only [List.cons_append, List.nil_append, utf8DecodeOne]
      rw [if_neg (by omega), if_neg (by omega), if_pos (by omega : 0xC0 + n / 0x40 < 0xE0)]
      simp only [e4, if_true]
      have key : (0xC0 + n / 0x40 - 0xC0) * 0x40 + (0x80 + n % 0x40 - 0x80) = n := by
        omega
      rw [key]
    · by_cases h3 : n < 0x10000
      · rw [utf8EncodeScalar, if_neg h1, if_neg h2, if_pos h3]
        have hdd : n / 0x40 / 0x40 = n / 0x1000 := by
          rw [Nat.div_div_eq_div_mul]
        have e5 : isCont (0x80 + n / 0x40 % 0x40) = true := by
          simp [isCont]; omega
        have e6 : isCont (0x80 + n % 0x40) = true := by
          simp [isCont]; omega
        have key : (0xE0 + n / 0x1000 - 0xE0) * 0x1000 +
            (0x80 + n / 0x40 % 0x40 - 0x80) * 0x40 + (0x80 + n % 0x40 - 0x80) = n := by
          omega
        simp only [List.cons_append, List.nil_append, utf8DecodeOne]
        rw [if_neg (by omega), if_neg (by omega), if_neg (by omega),
          if_pos (by omega : 0xE0 + n / 0x1000 < 0xF0)]
        simp only [e5, e6, Bool.and_self, if_true, key]
        rw [if_pos (by omega)]
      · rw [utf8EncodeScalar, if_neg h1, if_neg h2, if_neg h3]
        have hdd1 : n / 0x40 / 0x40 = n / 0x1000 := by
          rw [Nat.div_div_eq_div_mul]
        have hdd2 : n / 0x1000 / 0x40 = n / 0x40000 := by
          rw [Nat.div_div_eq_div_mul]
        have c2 : isCont (0x80 + n / 0x1000 % 0x40) = true := by
          simp [isCont]; omega
        have c3 : isCont (0x80 + n / 0x40 % 0x40) = true := by
          simp [isCont]; omega
        have c4 : isCont (0x80 + n % 0x40) = true := by
          simp [isCont]; omega
        have key : (0xF0 + n / 0x40000 - 0xF0) * 0x40000 +
            (0x80 + n / 0x1000 % 0x40 - 0x80) * 0x1000 +
            (0x80 + n / 0x40 % 0x40 - 0x80) * 0x40 + (0x80 + n % 0x40 - 0x80) = n := by
          omega
        simp only [List.cons_append, List.nil_append, utf8DecodeOne]
        rw [if_neg (by omega), if_neg (by omega), if_neg (by omega), if_neg (by omega),
          if_pos (by omega : 0xF0 + n / 0x40000 < 0xF5)]
        simp only [c2, c3, c4, Bool.and_self, if_true, key]
        rw [if_pos (by omega)]

theorem utf8DecodeBytes_encode_prefix (n : Nat) (hn : isScalar n)
    (rest : List Nat) :
    utf8DecodeBytes (utf8EncodeScalar n ++ rest) =
      (utf8DecodeBytes rest).map (n :: ·) :=
  utf8DecodeBytes_of_one _ n rest (utf8DecodeOne_encode n hn rest)

theorem char_isScalar (c : Char) : isScalar c.toNat := by
  have h := c.valid
  simp [UInt32.isValidChar, Nat.isValidChar] at h
  have he : c.toNat = c.val.toNat := rfl
  constructor
  · rw [he]; omega
  · rw [he]; omega

/-- UTF-8 round trip over whole strings. -/
theorem utf8DecodeBytes_utf8Bytes (s : List Char) (rest : List Nat) :
    utf8DecodeBytes (utf8Bytes s ++ rest) =
      (utf8DecodeBytes rest).map (s.map Char.toNat ++ ·) := by
  induction s with
  | nil =>
    simp only [utf8Bytes, List.flatMap_nil, List.nil_append, List.map_nil]
    cases utf8DecodeBytes rest <;> simp
  | cons c cs ih =>
    have he : utf8Bytes (c :: cs) = utf8EncodeScalar c.toNat ++ utf8Bytes cs := by
      simp [utf8Bytes]
    rw [he, List.append_assoc,
      utf8DecodeBytes_encode_prefix c.toNat (char_isScalar c), ih]
    cases utf8DecodeBytes rest <;> simp

/-! ## Base64 (`btoa` / `atob`)

`showSelectionContextMenu` encodes the UTF-8 byte string with `btoa`;
`setEphemeralState` decodes with `atob` (HTML forgiving-base64). -/

/-- Character of one base64 sextet. -/
def b64Char (n : Nat) : Char :=
  if n < 26 then Char.ofNat (65 + n)
  else if n < 52 then Char.ofNat (97 + (n - 26))
  else if n < 62 then Char.ofNat (48 + (n - 52))
  else if n = 62 then '+'
  else '/'

/-- Sextet value of a base64 alphabet character. -/
def b64Val (c : Char) : Option Nat :=
  if 65 ≤ c.toNat ∧ c.toNat ≤ 90 then some (c.toNat - 65)
  else if 97 ≤ c.toNat ∧ c.toNat ≤ 122 then some (c.toNat - 97 + 26)
  else if 48 ≤ c.toNat ∧ c.toNat ≤ 57 then some (c.toNat - 48 + 52)
  else if c.toNat = 43 then some 62
  else if c.toNat = 47 then some 63
  else none

theorem b64Val_b64Char (n : Nat) (h : n < 64) : b64Val (b64Char n) = some n := by
  interval_cases n <;> decide

theorem b64Char_ne_eq (n : Nat) (h : n < 64) : b64Char n ≠ '=' := by
  interval_cases n <;> decide

/-- `btoa` on a byte list: big-endian 6-bit groups with `=` padding. -/
def btoaBytes : List Nat → List Char
  | [] => []
  | [b1] =>
    [b64Char (b1 / 4), b64Char (b1 % 4 * 16), '=', '=']
  | [b1, b2] =>
    [b64Char (b1 / 4), b64Char (b1 % 4 * 16 + b2 / 16),
     b64Char (b2 % 16 * 4), '=']
  | b1 :: b2 :: b3 :: rest =>
    b64Char (b1 / 4) :: b64Char (b1 % 4 * 16 + b2 / 16) ::
    b64Char (b2 % 16 * 4 + b3 / 64) :: b64Char (b3 % 64) :: btoaBytes rest

/-- `btoa` on a JavaScript string: throws (`none`) when a character is
outside the Latin-1 range. -/
def btoaStr (s : List Char) : Option (List Char) :=
  if s.all (fun c => c.toNat < 256) then some (btoaBytes (s.map Char.toNat))
  else none

/-- HTML ASCII whitespace, removed by forgiving-base64 decoding. -/
def isAsciiWs (c : Char) : Bool :=
  c.toNat = 9 || c.toNat = 10 || c.toNat = 12 || c.toNat = 13 || c.toNat = 32

/-- Core of forgiving-base64 decoding, after whitespace removal:
groups of four characters, with a final partial or `=`-padded group
yielding one or two bytes (leftover bits discarded, as `atob` does). -/
def atobCore : List Char → Option (List Nat)
  | [] => some []
  | [a, b] => do
    let s1 ← b64Val a
    let s2 ← b64Val b
    pure [s1 * 4 + s2 / 16]
  | [a, b, c] => do
    let s1 ← b64Val a
    let s2 ← b64Val b
    let s3 ← b64Val c
    pure [s1 * 4 + s2 / 16, s2 % 16 * 16 + s3 / 4]
  | a :: b :: '=' :: '=' :: rest =>
    if rest.isEmpty then do
      let s1 ← b64Val a
      let s2 ← b64Val b
      pure [s1 * 4 + s2 / 16]
    else none
  | a :: b :: c :: '=' :: rest =>
    if rest.isEmpty then do
      let s1 ← b64Val a
      let s2 ← b64Val b
      let s3 ← b64Val c
      pure [s1 * 4 + s2 / 16, s2 % 16 * 16 + s3 / 4]
    else none
  | a :: b :: c :: d :: rest => do
    let s1 ← b64Val a
    let s2 ← b64Val b
    let s3 ← b64Val c
    let s4 ← b64Val d
    let tail ← atobCore rest
    pure ((s1 * 4 + s2 / 16) :: (s2 % 16 * 16 + s3 / 4) :: (s3 % 4 * 64 + s4) :: tail)
  | [_] => none

/-- `atob`: forgiving-base64 decoding (whitespace removed first);
`none` models the thrown `InvalidCharacterError`. -/
def atobChars (l : List Char) : Option (List Nat) :=
  atobCore (l.filter (fun c => !isAsciiWs c))

theorem btoaBytes_no_ws (B : List Nat) (hB : ∀ b ∈ B, b < 256) :
    (btoaBytes B).filter (fun c => !isAsciiWs c) = btoaBytes B := by
  rw [List.filter_eq_self]
  have hchar : ∀ n, n < 64 → (!isAsciiWs (b64Char n)) = true := by
    intro n hn
    interval_cases n <;> decide
  have heq : (!isAsciiWs ('=')) = true := by decide
  induction B using btoaBytes.induct with
  | case1 => simp [btoaBytes]
  | case2 b1 =>
    have h1 := hB b1 (by simp)
    simp only [btoaBytes, List.mem_cons, List.not_mem_nil, or_false]
    rintro a (rfl | rfl | rfl | rfl)
    · exact hchar _ (by omega)
    · exact hchar _ (by omega)
    · exact heq
    · exact heq
  | case3 b1 b2 =>
    have h1 := hB b1 (by simp)
    have h2 := hB b2 (by simp)
    simp only [btoaBytes, List.mem_cons, List.not_mem_nil, or_false]
    rintro a (rfl | rfl | rfl | rfl)
    · exact hchar _ (by omega)
    · exact hchar _ (by omega)
    · exact hchar _ (by omega)
    · exact heq
  | case4 b1 b2 b3 rest ih =>
    have h1 := hB b1 (by simp)
    have h2 := hB b2 (by simp)
    have h3 := hB b3 (by simp)
    have ih2 := ih (fun b hb => hB b (by simp [hb]))
    simp only [btoaBytes, List.mem_cons]
    rintro a (rfl | rfl | rfl | rfl | ha)
    · exact hchar _ (by omega)
    · exact hchar _ (by omega)
    · exact hchar _ (by omega)
    · exact hchar _ (by omega)
    · exact ih2 a ha

theorem atobCore_pad2 (a b : Char) :
    atobCore [a, b, '=', '='] = (do
      let s1 ← b64Val a
      let s2 ← b64Val b
      pure [s1 * 4 + s2 / 16]) := by
  rw [atobCore.eq_def]
  split
  all_goals try subst_eqs
  all_goals try rfl
  all_goals simp_all

theorem atobCore_pad1 (a b c : Char) (hc : c ≠ '=') :
    atobCore [a, b, c, '='] = (do
      let s1 ← b64Val a
      let s2 ← b64Val b
      let s3 ← b64Val c
      pure [s1 * 4 + s2 / 16, s2 % 16 * 16 + s3 / 4]) := by
  rw [atobCore.eq_def]
  split
  all_goals try subst_eqs
  all_goals try rfl
  all_goals simp_all

theorem atobCore_full (a b c d : Char) (rest : List Char)
    (hc : c ≠ '=') (hd : d ≠ '=') :
    atobCore (a :: b :: c :: d :: rest) = (do
      let s1 ← b64Val a
      let s2 ← b64Val b
      let s3 ← b64Val c
      let s4 ← b64Val d
      let tail ← atobCore rest
      pure ((s1 * 4 + s2 / 16) :: (s2 % 16 * 16 + s3 / 4) :: (s3 % 4 * 64 + s4) :: tail)) := by
  rw [atobCore.eq_def]
  split
  all_goals try subst_eqs
  all_goals try rfl
  all_goals simp_all

theorem atobCore_btoaBytes (B : List Nat) (hB : ∀ b ∈ B, b < 256) :
    atobCore (btoaBytes B) = some B := by
  induction B using btoaBytes.induct with
  | case1 => simp [btoaBytes, atobCore]
  | case2 b1 =>
    have h1 := hB b1 (by simp)
    have e1 : b1 / 4 < 64 := by omega
    have e2 : b1 % 4 * 16 < 64 := by omega
    rw [btoaBytes, atobCore_pad2, b64Val_b64Char _ e1, b64Val_b64Char _ e2]
    simp only [Option.bind_eq_bind, Option.some_bind]
    have k1 : b1 / 4 * 4 + b1 % 4 * 16 / 16 = b1 := by omega
    rw [k1]
    rfl
  | case3 b1 b2 =>
    have h1 := hB b1 (by simp)
    have h2 := hB b2 (by simp)
    have e1 : b1 / 4 < 64 := by omega
    have e2 : b1 % 4 * 16 + b2 / 16 < 64 := by omega
    have e3 : b2 % 16 * 4 < 64 := by omega
    rw [btoaBytes, atobCore_pad1 _ _ _ (b64Char_ne_eq _ e3),
      b64Val_b64Char _ e1, b64Val_b64Char _ e2, b64Val_b64Char _ e3]
    simp only [Option.bind_eq_bind, Option.some_bind]
    have k1 : b1 / 4 * 4 + (b1 % 4 * 16 + b2 / 16) / 16 = b1 := by omega
    have k2 : (b1 % 4 * 16 + b2 / 16) % 16 * 16 + b2 % 16 * 4 / 4 = b2 := by omega
    rw [k1, k2]
    rfl
  | case4 b1 b2 b3 rest ih =>
    have h1 := hB b1 (by simp)
    have h2 := hB b2 (by simp)
    have h3 := hB b3 (by simp)
    have ih2 := ih (fun b hb => hB b (by simp [hb]))
    have e1 : b1 / 4 < 64 := by omega
    have e2 : b1 % 4 * 16 + b2 / 16 < 64 := by omega
    have e3 : b2 % 16 * 4 + b3 / 64 < 64 := by omega
    have e4 : b3 % 64 < 64 := by omega
    rw [btoaBytes, atobCore_full _ _ _ _ _ (b64Char_ne_eq _ e3) (b64Char_ne_eq _ e4),
      b64Val_b64Char _ e1, b64Val_b64Char _ e2, b64Val_b64Char _ e3,
      b64Val_b64Char _ e4, ih2]
    simp only [Option.bind_eq_bind, Option.some_bind]
    have k1 : b1 / 4 * 4 + (b1 % 4 * 16 + b2 / 16) / 16 = b1 := by omega
    have k2 : (b1 % 4 * 16 + b2 / 16) % 16 * 16 + (b2 % 16 * 4 + b3 / 64) / 4 = b2 := by
      omega
    have k3 : (b2 % 16 * 4 + b3 / 64) % 4 * 64 + b3 % 64 = b3 := by omega
    rw [k1, k2, k3]
    rfl

/-- base64 round trip through the whitespace-stripping `atob`. -/
theorem atobChars_btoaBytes (B : List Nat) (hB : ∀ b ∈ B, b < 256) :
    atobChars (btoaBytes B) = some B := by
  rw [atobChars, btoaBytes_no_ws B hB, atobCore_btoaBytes B hB]

/-! ## Percent encodings: `encodeURIComponent`, `decodeURIComponent`,
`escape`, `unescape` -/

theorem toNat_ofNat_valid (n : Nat) (h : n.isValidChar) :
    (Char.ofNat n).toNat = n := by
  have hlt : n < 1114112 := by
    rcases h with h | h
    · omega
    · omega
  simp only [Char.ofNat, Char.ofNatAux, h, dif_pos]
  simp [Char.toNat, UInt32.toNat, BitVec.toNat_ofNatLt]

theorem toNat_ofNat_byte (b : Nat) (h : b < 256) : (Char.ofNat b).toNat = b :=
  toNat_ofNat_valid b (Or.inl (by omega))

theorem length_dropWhile_le {α : Type} (p : α → Bool) (l : List α) :
    (l.dropWhile p).length ≤ l.length := by
  induction l with
  | nil => simp
  | cons x xs ih =>
    rw [List.dropWhile_cons]
    split
    · exact le_trans ih (by simp)
    · simp

theorem utf8EncodeScalar_lt_256 (n : Nat) (hn : n < 0x110000) :
    ∀ b ∈ utf8EncodeScalar n, b < 256 := by
  intro b hb
  rw [utf8EncodeScalar] at hb
  split_ifs at hb <;> simp_all <;> omega

theorem utf8EncodeScalar_ne_nil (n : Nat) : utf8EncodeScalar n ≠ [] := by
  rw [utf8EncodeScalar]
  split_ifs <;> simp

theorem utf8EncodeScalar_ascii (n : Nat) (h : n < 0x80) :
    utf8EncodeScalar n = [n] := by
  rw [utf8EncodeScalar, if_pos h]

theorem utf8EncodeScalar_high (n : Nat) (h : 0x80 ≤ n) :
    ∀ b ∈ utf8EncodeScalar n, 0x80 ≤ b := by
  intro b hb
  rw [utf8EncodeScalar] at hb
  split_ifs at hb <;> simp_all <;> omega

/-- Characters that `encodeURIComponent` leaves unescaped:
alphanumerics and `-_.!~*'()`. -/
def uriUnreserved (c : Char) : Bool :=
  (65 ≤ c.toNat && c.toNat ≤ 90) || (97 ≤ c.toNat && c.toNat ≤ 122) ||
  (48 ≤ c.toNat && c.toNat ≤ 57) ||
  c.toNat = 45 || c.toNat = 95 || c.toNat = 46 || c.toNat = 33 ||
  c.toNat = 126 || c.toNat = 42 || c.toNat = 39 || c.toNat = 40 || c.toNat = 41

/-- `%XX` escape of one byte (uppercase hex, as the builtins emit). -/
def percentByte (b : Nat) : List Char :=
  ['%', hexDigitChar (b / 16), hexDigitChar (b % 16)]

/-- `encodeURIComponent`: unreserved characters pass through, all others
are percent-escaped as their UTF-8 bytes. -/
def encodeURIComponentChars (s : List Char) : List Char :=
  s.flatMap (fun c =>
    if uriUnreserved c then [c]
    else (utf8EncodeScalar c.toNat).flatMap percentByte)

/-- One token of a percent-encoded string: an unescaped character or an
escaped byte. -/
inductive PctTok where
  | raw (c : Char)
  | byte (b : Nat)
deriving DecidableEq

/-- Tokenize a percent-encoded string; `none` models the `URIError`
thrown on a `%` not followed by two hex digits. -/
def pctTokens : List Char → Option (List PctTok)
  | [] => some []
  | '%' :: h1 :: h2 :: rest =>
    match hexPairVal h1 h2 with
    | some b => (pctTokens rest).map (PctTok.byte b :: ·)
    | none => none
  | '%' :: _ => none
  | c :: rest => (pctTokens rest).map (PctTok.raw c :: ·)

/-- Is this token an escaped byte? -/
def isByteTok : PctTok → Bool
  | PctTok.byte _ => true
  | PctTok.raw _ => false

/-- The byte carried by a byte token (0 for raw tokens). -/
def tokByte : PctTok → Nat
  | PctTok.byte b => b
  | PctTok.raw _ => 0

/-- Fuelled (structural) form of the token rebuild, so that concrete
instances evaluate. -/
def tokensToStrFuel : Nat → List PctTok → Option (List Char)
  | _, [] => some []
  | 0, _ :: _ => none
  | fuel + 1, PctTok.raw c :: ts => (tokensToStrFuel fuel ts).map (c :: ·)
  | fuel + 1, PctTok.byte b :: ts =>
    match utf8DecodeBytes (b :: (ts.takeWhile isByteTok).map tokByte) with
    | some ns =>
      (tokensToStrFuel fuel (ts.dropWhile isByteTok)).map (ns.map Char.ofNat ++ ·)
    | none => none

/-- Rebuild the decoded string from tokens: raw characters pass through
and each maximal run of escaped bytes must decode as UTF-8 (else the
`URIError` of `decodeURIComponent`, modelled as `none`). -/
def tokensToStr (l : List PctTok) : Option (List Char) :=
  tokensToStrFuel l.length l

theorem tokensToStrFuel_mono (f1 : Nat) :
    ∀ (f2 : Nat) (l : List PctTok), l.length ≤ f1 → l.length ≤ f2 →
      tokensToStrFuel f1 l = tokensToStrFuel f2 l := by
  induction f1 using Nat.strong_induction_on with
  | _ f1 ih =>
    intro f2 l h1 h2
    match l with
    | [] => cases f1 <;> cases f2 <;> rfl
    | PctTok.raw c :: ts =>
      match f1, f2 with
      | g1 + 1, g2 + 1 =>
        have hl : (PctTok.raw c :: ts).length = ts.length + 1 := by simp
        rw [tokensToStrFuel, tokensToStrFuel,
          ih g1 (by omega) g2 ts (by omega) (by omega)]
    | PctTok.byte b :: ts =>
      match f1, f2 with
      | g1 + 1, g2 + 1 =>
        have hl : (PctTok.byte b :: ts).length = ts.length + 1 := by simp
        have hd : (ts.dropWhile isByteTok).length ≤ ts.length :=
          length_dropWhile_le isByteTok ts
        rw [tokensToStrFuel, tokensToStrFuel]
        cases utf8DecodeBytes (b :: (ts.takeWhile isByteTok).map tokByte) with
        | none => rfl
        | some ns =>
          simp only []
          rw [ih g1 (by omega) g2 (ts.dropWhile isByteTok) (by omega) (by omega)]

/-- `decodeURIComponent`; `none` models the thrown `URIError`. -/
def decodeURIComponentChars (s : List Char) : Option (List Char) :=
  (pctTokens s).bind tokensToStr

/-- Characters that `escape` leaves unescaped:
alphanumerics and `@*_+-./`. -/
def escapeSafe (c : Char) : Bool :=
  (65 ≤ c.toNat && c.toNat ≤ 90) || (97 ≤ c.toNat && c.toNat ≤ 122) ||
  (48 ≤ c.toNat && c.toNat ≤ 57) ||
  c.toNat = 64 || c.toNat = 42 || c.toNat = 95 || c.toNat = 43 ||
  c.toNat = 45 || c.toNat = 46 || c.toNat = 47

/-- `escape`: safe characters pass, other code units below 256 become
`%XX`, the rest `%uXXXX`. -/
def escapeChars (s : List Char) : List Char :=
  s.flatMap (fun c =>
    if escapeSafe c then [c]
    else if c.toNat < 256 then percentByte c.toNat
    else '%' :: 'u' :: [hexDigitChar (c.toNat / 4096 % 16),
      hexDigitChar (c.toNat / 256 % 16), hexDigitChar (c.toNat / 16 % 16),
      hexDigitChar (c.toNat % 16)])

/-- `unescape`: decodes `%uXXXX` and `%XX` sequences, leaving malformed
`%` untouched.  Never throws. -/
def unescapeChars : List Char → List Char
  | [] => []
  | '%' :: 'u' :: h1 :: h2 :: h3 :: h4 :: rest =>
    match hexVal h1, hexVal h2, hexVal h3, hexVal h4 with
    | some a, some b, some c, some d =>
      Char.ofNat (4096 * a + 256 * b + 16 * c + d) :: unescapeChars rest
    | _, _, _, _ => '%' :: unescapeChars ('u' :: h1 :: h2 :: h3 :: h4 :: rest)
  | '%' :: h1 :: h2 :: rest =>
    match hexPairVal h1 h2 with
    | some b => Char.ofNat b :: unescapeChars rest
    | none => '%' :: unescapeChars (h1 :: h2 :: rest)
  | c :: rest => c :: unescapeChars rest

theorem pctTokens_nil : pctTokens [] = some [] := rfl

theorem pctTokens_pct (h1 h2 : Char) (rest : List Char) :
    pctTokens ('%' :: h1 :: h2 :: rest) =
      match hexPairVal h1 h2 with
      | some b => (pctTokens rest).map (PctTok.byte b :: ·)
      | none => none := by
  rw [pctTokens.eq_def]
  rfl

theorem pctTokens_raw (c : Char) (hc : c ≠ '%') (rest : List Char) :
    pctTokens (c :: rest) = (pctTokens rest).map (PctTok.raw c :: ·) := by
  rw [pctTokens.eq_def]
  split
  all_goals try subst_eqs
  all_goals try rfl
  all_goals simp_all

theorem pctTokens_percentByte (b : Nat) (hb : b < 256) (l : List Char) :
    pctTokens (percentByte b ++ l) = (pctTokens l).map (PctTok.byte b :: ·) := by
  rw [percentByte]
  simp only [List.cons_append, List.nil_append]
  rw [pctTokens_pct, hexPairVal_split b hb]

theorem pctTokens_percentRun (bs : List Nat) (hbs : ∀ b ∈ bs, b < 256)
    (l : List Char) :
    pctTokens (bs.flatMap percentByte ++ l) =
      (pctTokens l).map (bs.map PctTok.byte ++ ·) := by
  induction bs with
  | nil =>
    simp only [List.flatMap_nil, List.nil_append, List.map_nil]
    cases pctTokens l <;> simp
  | cons b bs ih =>
    have hb := hbs b (by simp)
    have ih2 := ih (fun x hx => hbs x (by simp [hx]))
    simp only [List.flatMap_cons, List.append_assoc]
    rw [pctTokens_percentByte b hb, ih2]
    cases pctTokens l <;> simp

theorem tokensToStr_nil : tokensToStr [] = some [] := rfl

theorem tokensToStr_raw (c : Char) (ts : List PctTok) :
    tokensToStr (PctTok.raw c :: ts) = (tokensToStr ts).map (c :: ·) := by
  rw [tokensToStr, tokensToStr]
  have hl : (PctTok.raw c :: ts).length = ts.length + 1 := by simp
  rw [hl, tokensToStrFuel]

theorem tokensToStr_byte (b : Nat) (ts : List PctTok) :
    tokensToStr (PctTok.byte b :: ts) =
      match utf8DecodeBytes (b :: (ts.takeWhile isByteTok).map tokByte) with
      | some ns => (tokensToStr (ts.dropWhile isByteTok)).map (ns.map Char.ofNat ++ ·)
      | none => none := by
  rw [tokensToStr, tokensToStr]
  have hl : (PctTok.byte b :: ts).length = ts.length + 1 := by simp
  rw [hl, tokensToStrFuel]
  cases utf8DecodeBytes (b :: (ts.takeWhile isByteTok).map tokByte) with
  | none => rfl
  | some ns =>
    simp only []
    rw [tokensToStrFuel_mono ts.length (ts.dropWhile isByteTok).length
      (ts.dropWhile isByteTok) (length_dropWhile_le isByteTok ts) (le_refl _)]

theorem takeWhile_byteRun (bs : List Nat) (ts : List PctTok) :
    (bs.map PctTok.byte ++ ts).takeWhile isByteTok =
      bs.map PctTok.byte ++ ts.takeWhile isByteTok := by
  induction bs with
  | nil => simp
  | cons b bs ih => simp [List.takeWhile_cons, isByteTok, ih]

theorem dropWhile_byteRun (bs : List Nat) (ts : List PctTok) :
    (bs.map PctTok.byte ++ ts).dropWhile isByteTok = ts.dropWhile isByteTok := by
  induction bs with
  | nil => simp
  | cons b bs ih => simp [List.dropWhile_cons, isByteTok, ih]

theorem map_tokByte_byteRun (bs : List Nat) : (bs.map PctTok.byte).map tokByte = bs := by
  induction bs with
  | nil => simp
  | cons b bs ih => simp [tokByte, ih]

theorem utf8Bytes_nil : utf8Bytes [] = [] := rfl

theorem utf8Bytes_cons (c : Char) (s : List Char) :
    utf8Bytes (c :: s) = utf8EncodeScalar c.toNat ++ utf8Bytes s := by
  simp [utf8Bytes]

theorem utf8Bytes_append (s t : List Char) :
    utf8Bytes (s ++ t) = utf8Bytes s ++ utf8Bytes t := by
  simp [utf8Bytes]

/-- Decoding a pure byte-token run built from a string's UTF-8 bytes. -/
theorem tokensToStr_byteRun (pre : List Char) :
    tokensToStr ((utf8Bytes pre).map PctTok.byte) = some pre := by
  cases hp : utf8Bytes pre with
  | nil =>
    cases pre with
    | nil => simp [tokensToStr_nil]
    | cons c s =>
      rw [utf8Bytes_cons] at hp
      exact absurd (List.append_eq_nil.mp hp).1 (utf8EncodeScalar_ne_nil c.toNat)
  | cons b bs =>
    simp only [List.map_cons]
    rw [tokensToStr_byte]
    have htw : (bs.map PctTok.byte).takeWhile isByteTok = bs.map PctTok.byte := by
      have := takeWhile_byteRun bs []
      simpa using this
    have hdw : (bs.map PctTok.byte).dropWhile isByteTok = [] := by
      have := dropWhile_byteRun bs []
      simpa using this
    rw [htw, hdw, map_tokByte_byteRun]
    have hdec : utf8DecodeBytes (b :: bs) = some (pre.map Char.toNat) := by
      rw [← hp]
      have := utf8DecodeBytes_utf8Bytes pre []
      simpa [utf8DecodeBytes_nil] using this
    rw [hdec, tokensToStr_nil]
    simp [Function.comp_def]

/-- Key lemma: tokens produced per character, each character contributing
either its raw self or the byte-escape of its UTF-8 encoding, decode back
to the original string. -/
theorem tokensToStr_flatMap (F : Char → List PctTok) (s : List Char) :
    ∀ pre : List Char,
      (∀ c ∈ s, F c = [PctTok.raw c] ∨
        F c = (utf8EncodeScalar c.toNat).map PctTok.byte) →
      tokensToStr ((utf8Bytes pre).map PctTok.byte ++ s.flatMap F) =
        some (pre ++ s) := by
  induction s with
  | nil =>
    intro pre _
    simpa using tokensToStr_byteRun pre
  | cons c s2 ih =>
    intro pre hF
    have hc := hF c (by simp)
    have hF2 : ∀ x ∈ s2, F x = [PctTok.raw x] ∨
        F x = (utf8EncodeScalar x.toNat).map PctTok.byte :=
      fun x hx => hF x (by simp [hx])
    rcases hc with hc | hc
    · rw [List.flatMap_cons, hc]
      have tail2 : tokensToStr (s2.flatMap F) = some s2 := by
        have := ih [] hF2
        simpa using this
      cases hp : utf8Bytes pre with
      | nil =>
        cases pre with
        | nil =>
          simp only [utf8Bytes_nil, List.map_nil, List.nil_append,
            List.cons_append, List.nil_append]
          rw [tokensToStr_raw, tail2]
          simp
        | cons x xs =>
          rw [utf8Bytes_cons] at hp
          exact absurd (List.append_eq_nil.mp hp).1 (utf8EncodeScalar_ne_nil x.toNat)
      | cons b bs =>
        simp only [List.map_cons, List.cons_append, List.nil_append]
        rw [tokensToStr_byte]
        rw [takeWhile_byteRun bs (PctTok.raw c :: s2.flatMap F),
          dropWhile_byteRun bs (PctTok.raw c :: s2.flatMap F)]
        have htw : (PctTok.raw c :: s2.flatMap F).takeWhile isByteTok = [] := by
          simp [List.takeWhile_cons, isByteTok]
        have hdw : (PctTok.raw c :: s2.flatMap F).dropWhile isByteTok =
            PctTok.raw c :: s2.flatMap F := by
          simp [List.dropWhile_cons, isByteTok]
        rw [htw, hdw]
        simp only [List.append_nil, map_tokByte_byteRun]
        have hdec : utf8DecodeBytes (b :: bs) = some (pre.map Char.toNat) := by
          rw [← hp]
          have := utf8DecodeBytes_utf8Bytes pre []
          simpa [utf8DecodeBytes_nil] using this
        rw [hdec, tokensToStr_raw, tail2]
        simp [Function.comp_def]
    · rw [List.flatMap_cons, hc, ← List.append_assoc, ← List.map_append]
      have : (utf8Bytes pre ++ utf8EncodeScalar c.toNat) = utf8Bytes (pre ++ [c]) := by
        rw [utf8Bytes_append, utf8Bytes_cons, utf8Bytes_nil, List.append_nil]
      rw [this, ih (pre ++ [c]) hF2]
      simp

/-- `decodeURIComponent` inverts `encodeURIComponent` on every string. -/
theorem pctTokens_encodeURIComponent (s : List Char) :
    pctTokens (encodeURIComponentChars s) =
      some (s.flatMap (fun c =>
        if uriUnreserved c then [PctTok.raw c]
        else (utf8EncodeScalar c.toNat).map PctTok.byte)) := by
  induction s with
  | nil => simp [encodeURIComponentChars, pctTokens_nil]
  | cons c s2 ih =>
    rw [encodeURIComponentChars, List.flatMap_cons, ← encodeURIComponentChars.eq_def]
    by_cases hu : uriUnreserved c
    · have hne : c ≠ '%' := by
        intro he
        subst he
        exact absurd hu (by decide)
      rw [if_pos hu]
      simp only [List.cons_append, List.nil_append]
      rw [pctTokens_raw c hne, ih, List.flatMap_cons, if_pos hu]
      simp
    · rw [if_neg hu]
      have hlt := utf8EncodeScalar_lt_256 c.toNat (char_isScalar c).1
      rw [pctTokens_percentRun _ hlt, ih, List.flatMap_cons, if_neg hu]
      simp

theorem decodeURIComponent_encodeURIComponent (s : List Char) :
    decodeURIComponentChars (encodeURIComponentChars s) = some s := by
  rw [decodeURIComponentChars, pctTokens_encodeURIComponent s]
  simp only [Option.some_bind]
  have := tokensToStr_flatMap
    (fun c => if uriUnreserved c then [PctTok.raw c]
      else (utf8EncodeScalar c.toNat).map PctTok.byte) s []
    (by
      intro c _
      by_cases hu : uriUnreserved c
      · exact Or.inl (by simp [hu])
      · exact Or.inr (by simp [hu]))
  simpa using this

theorem escapeSafe_high (b : Nat) (h1 : 0x80 ≤ b) (h2 : b < 256) :
    escapeSafe (Char.ofNat b) = false := by
  have ht : (Char.ofNat b).toNat = b := toNat_ofNat_byte b h2
  apply Bool.eq_false_iff.mpr
  intro hcontra
  rw [escapeSafe, ht] at hcontra
  simp at hcontra
  rcases hcontra with h | h | h | h | h | h | h | h | h | h <;> omega

/-- `escape` over a string of high bytes percent-escapes each byte. -/
theorem escapeChars_highBytes (bs : List Nat) (h1 : ∀ b ∈ bs, 0x80 ≤ b)
    (h2 : ∀ b ∈ bs, b < 256) :
    escapeChars (bs.map Char.ofNat) = bs.flatMap percentByte := by
  induction bs with
  | nil => simp [escapeChars]
  | cons b bs ih =>
    have hb1 := h1 b (by simp)
    have hb2 := h2 b (by simp)
    have ih2 := ih (fun x hx => h1 x (by simp [hx])) (fun x hx => h2 x (by simp [hx]))
    rw [List.map_cons, escapeChars, List.flatMap_cons, ← escapeChars.eq_def, ih2,
      List.flatMap_cons]
    congr 1
    rw [if_neg (by simp [escapeSafe_high b hb1 hb2]),
      if_pos (by rw [toNat_ofNat_byte b hb2]; omega), toNat_ofNat_byte b hb2]

/-- `escape` of the byte string of a UTF-8 encoding, per character. -/
theorem escapeChars_utf8 (s : List Char) :
    escapeChars ((utf8Bytes s).map Char.ofNat) =
      s.flatMap (fun c =>
        if c.toNat < 0x80 then
          (if escapeSafe c then [c] else percentByte c.toNat)
        else (utf8EncodeScalar c.toNat).flatMap percentByte) := by
  induction s with
  | nil => simp [utf8Bytes_nil, escapeChars]
  | cons c s2 ih =>
    rw [utf8Bytes_cons, List.map_append, escapeChars, List.flatMap_append,
      ← escapeChars.eq_def, ← escapeChars.eq_def, ih, List.flatMap_cons]
    congr 1
    by_cases ha : c.toNat < 0x80
    · rw [if_pos ha, utf8EncodeScalar_ascii c.toNat ha]
      simp only [List.map_cons, List.map_nil, Char.ofNat_toNat]
      simp only [escapeChars, List.flatMap_cons, List.flatMap_nil, List.append_nil]
      by_cases hs : escapeSafe c
      · simp [hs]
      · simp only [hs, if_false, Bool.false_eq_true]
        rw [if_pos (by omega : c.toNat < 256)]
    · rw [if_neg ha]
      have hhi := utf8EncodeScalar_high c.toNat (by omega)
      have hlo := utf8EncodeScalar_lt_256 c.toNat (char_isScalar c).1
      exact escapeChars_highBytes _ hhi hlo


theorem pctTokens_escaped (s : List Char) :
    pctTokens (s.flatMap (fun c =>
        if c.toNat < 0x80 then (if escapeSafe c then [c] else percentByte c.toNat)
        else (utf8EncodeScalar c.toNat).flatMap percentByte)) =
      some (s.flatMap (fun c =>
        if c.toNat < 0x80 ∧ escapeSafe c = true then [PctTok.raw c]
        else (utf8EncodeScalar c.toNat).map PctTok.byte)) := by
  induction s with
  | nil => simp [pctTokens_nil]
  | cons c s2 ih =>
    rw [List.flatMap_cons, List.flatMap_cons]
    by_cases ha : c.toNat < 0x80
    · by_cases hs : escapeSafe c
      · have hne : c ≠ '%' := by
          intro he
          subst he
          exact absurd hs (by decide)
        rw [if_pos ha, if_pos hs, if_pos ⟨ha, hs⟩]
        rw [List.singleton_append, pctTokens_raw c hne, ih]
        simp
      · rw [if_pos ha, if_neg hs, if_neg (by tauto)]
        rw [utf8EncodeScalar_ascii _ ha, pctTokens_percentByte c.toNat (by omega), ih]
        simp
    · rw [if_neg ha, if_neg (by tauto)]
      have hlo := utf8EncodeScalar_lt_256 c.toNat (char_isScalar c).1
      rw [pctTokens_percentRun _ hlo, ih]
      simp

/-- `decodeURIComponent (escape bytes)` recovers the string whose UTF-8
bytes were given (the decode path of `setEphemeralState`). -/
theorem decodeURIComponent_escape_utf8 (s : List Char) :
    decodeURIComponentChars (escapeChars ((utf8Bytes s).map Char.ofNat)) = some s := by
  rw [escapeChars_utf8 s, decodeURIComponentChars, pctTokens_escaped s]
  simp only [Option.some_bind]
  have := tokensToStr_flatMap
    (fun c => if c.toNat < 0x80 ∧ escapeSafe c = true then [PctTok.raw c]
      else (utf8EncodeScalar c.toNat).map PctTok.byte) s []
    (by
      intro c _
      by_cases h : c.toNat < 0x80 ∧ escapeSafe c = true
      · exact Or.inl (by simp [h])
      · exact Or.inr (by simp only [h, if_false]))
  simpa using this

theorem unescapeChars_raw (c : Char) (hc : c ≠ '%') (rest : List Char) :
    unescapeChars (c :: rest) = c :: unescapeChars rest := by
  rw [unescapeChars.eq_def]
  split
  all_goals try subst_eqs
  all_goals try rfl
  all_goals simp_all

theorem hexDigitChar_ne_u (n : Nat) (h : n < 16) : hexDigitChar n ≠ 'u' := by
  interval_cases n <;> decide

theorem unescapeChars_pct (b : Nat) (hb : b < 256) (rest : List Char) :
    unescapeChars (percentByte b ++ rest) = Char.ofNat b :: unescapeChars rest := by
  rw [percentByte]
  simp only [List.cons_append, List.nil_append]
  rw [unescapeChars.eq_def]
  split
  · rename_i heq
    simp at heq
  · rename_i heq
    simp only [List.cons.injEq, true_and] at heq
    exact absurd heq.1 (hexDigitChar_ne_u (b / 16) (by omega))
  · rename_i hne heq
    simp only [List.cons.injEq, true_and] at heq
    obtain ⟨e1, e2, e3⟩ := heq
    subst e1
    subst e2
    subst e3
    rw [hexPairVal_split b hb]
  · rename_i hne1 hne2 heq
    simp only [List.cons.injEq, true_and] at heq
    exact (hne2 _ _ _ heq.1.symm heq.2.symm).elim

theorem unescapeChars_pctRun (bs : List Nat) (hbs : ∀ b ∈ bs, b < 256)
    (l : List Char) :
    unescapeChars (bs.flatMap percentByte ++ l) =
      bs.map Char.ofNat ++ unescapeChars l := by
  induction bs with
  | nil => simp
  | cons b bs ih =>
    have hb := hbs b (by simp)
    have ih2 := ih (fun x hx => hbs x (by simp [hx]))
    simp only [List.flatMap_cons, List.append_assoc, List.map_cons, List.cons_append]
    rw [unescapeChars_pct b hb, ih2]

theorem uriUnreserved_ascii (c : Char) (h : uriUnreserved c = true) :
    c.toNat < 0x80 := by
  rw [uriUnreserved] at h
  simp only [Bool.or_eq_true, Bool.and_eq_true, decide_eq_true_eq] at h
  rcases h with ((((((((((h | h) | h) | h) | h) | h) | h) | h) | h) | h) | h) | h <;> omega

/-- `unescape (encodeURIComponent s)` is the UTF-8 byte string of `s`,
one character per byte. -/
theorem unescape_encodeURIComponent (s : List Char) :
    unescapeChars (encodeURIComponentChars s) = (utf8Bytes s).map Char.ofNat := by
  induction s with
  | nil => simp [encodeURIComponentChars, utf8Bytes_nil, unescapeChars]
  | cons c s2 ih =>
    rw [encodeURIComponentChars, List.flatMap_cons, ← encodeURIComponentChars.eq_def,
      utf8Bytes_cons, List.map_append]
    by_cases hu : uriUnreserved c
    · have hne : c ≠ '%' := by
        intro he
        subst he
        exact absurd hu (by decide)
      rw [if_pos hu, List.singleton_append, unescapeChars_raw c hne, ih,
        utf8EncodeScalar_ascii c.toNat (uriUnreserved_ascii c hu)]
      simp
    · rw [if_neg hu]
      have hlo := utf8EncodeScalar_lt_256 c.toNat (char_isScalar c).1
      rw [unescapeChars_pctRun _ hlo, ih]

theorem utf8Bytes_lt_256 (s : List Char) : ∀ b ∈ utf8Bytes s, b < 256 := by
  intro b hb
  rw [utf8Bytes] at hb
  simp only [List.mem_flatMap] at hb
  obtain ⟨c, _, hbc⟩ := hb
  exact utf8EncodeScalar_lt_256 c.toNat (char_isScalar c).1 b hbc

/-! ## Decimal page numbers: template interpolation and `parseInt` -/

/-- Fuelled (structural) digit accumulator for the decimal printer. -/
def natToDecimalFuel : Nat → Nat → List Char → List Char
  | 0, _, acc => acc
  | fuel + 1, n, acc =>
    if n = 0 then acc
    else natToDecimalFuel fuel (n / 10) (digitChar (n % 10) :: acc)

/-- Digit-by-digit decimal printer (the template interpolation
of a page number in the source). -/
def natToDecimalGo (n : Nat) (acc : List Char) : List Char :=
  natToDecimalFuel n n acc

theorem natToDecimalFuel_mono (f1 : Nat) :
    ∀ (f2 n : Nat) (acc : List Char), n ≤ f1 → n ≤ f2 →
      natToDecimalFuel f1 n acc = natToDecimalFuel f2 n acc := by
  induction f1 using Nat.strong_induction_on with
  | _ f1 ih =>
    intro f2 n acc h1 h2
    by_cases hn : n = 0
    · subst hn
      cases f1 <;> cases f2 <;> simp [natToDecimalFuel]
    · obtain ⟨g1, rfl⟩ : ∃ g, f1 = g + 1 := ⟨f1 - 1, by omega⟩
      obtain ⟨g2, rfl⟩ : ∃ g, f2 = g + 1 := ⟨f2 - 1, by omega⟩
      rw [natToDecimalFuel, natToDecimalFuel, if_neg hn, if_neg hn]
      have hdiv : n / 10 < n := Nat.div_lt_self (Nat.pos_of_ne_zero hn) (by omega)
      exact ih g1 (by omega) g2 (n / 10) _ (by omega) (by omega)

theorem natToDecimalGo_zero (acc : List Char) : natToDecimalGo 0 acc = acc := rfl

theorem natToDecimalGo_step (n : Nat) (hn : n ≠ 0) (acc : List Char) :
    natToDecimalGo n acc = natToDecimalGo (n / 10) (digitChar (n % 10) :: acc) := by
  rw [natToDecimalGo, natToDecimalGo]
  obtain ⟨m, rfl⟩ : ∃ m, n = m + 1 := ⟨n - 1, by omega⟩
  rw [natToDecimalFuel, if_neg hn]
  have hdiv : (m + 1) / 10 ≤ m := by omega
  exact natToDecimalFuel_mono m ((m + 1) / 10) ((m + 1) / 10) _ hdiv (le_refl _)

/-- Decimal rendering of a natural number. -/
def natToDecimal (n : Nat) : List Char :=
  if n = 0 then ['0'] else natToDecimalGo n []

/-- `parseInt(s, 10)` on an all-digit capture. -/
def decimalVal (cs : List Char) : Nat :=
  cs.foldl (fun a c => a * 10 + digitVal c) 0

theorem natToDecimalGo_append (n : Nat) (acc : List Char) :
    natToDecimalGo n acc = natToDecimalGo n [] ++ acc := by
  induction n using Nat.strong_induction_on generalizing acc with
  | _ n ih =>
    by_cases h : n = 0
    · subst h
      rw [natToDecimalGo_zero, natToDecimalGo_zero]
      simp
    · rw [natToDecimalGo_step n h acc, natToDecimalGo_step n h []]
      have hlt : n / 10 < n := Nat.div_lt_self (Nat.pos_of_ne_zero h) (by omega)
      rw [ih (n / 10) hlt (digitChar (n % 10) :: acc),
        ih (n / 10) hlt [digitChar (n % 10)]]
      simp

theorem decimalVal_append_digit (xs : List Char) (c : Char) :
    decimalVal (xs ++ [c]) = decimalVal xs * 10 + digitVal c := by
  rw [decimalVal, decimalVal, List.foldl_append]
  simp

theorem digitVal_digitChar (m : Nat) (h : m < 10) :
    digitVal (digitChar m) = m := by
  rw [digitVal, digitChar, toNat_ofNat_valid (48 + m) (Or.inl (by omega))]
  omega

theorem decimalVal_natToDecimalGo (n : Nat) :
    decimalVal (natToDecimalGo n []) = n := by
  induction n using Nat.strong_induction_on with
  | _ n ih =>
    by_cases h : n = 0
    · subst h
      rw [natToDecimalGo_zero]
      simp [decimalVal]
    · rw [natToDecimalGo_step n h [],
        natToDecimalGo_append (n / 10) [digitChar (n % 10)],
        decimalVal_append_digit, ih (n / 10) (Nat.div_lt_self (Nat.pos_of_ne_zero h) (by omega)),
        digitVal_digitChar (n % 10) (by omega)]
      omega

/-- `parseInt` inverts decimal rendering. -/
theorem decimalVal_natToDecimal (n : Nat) : decimalVal (natToDecimal n) = n := by
  rw [natToDecimal]
  by_cases h : n = 0
  · simp [h, decimalVal, digitVal]
  · rw [if_neg h]
    exact decimalVal_natToDecimalGo n

theorem digitChar_isDigit (m : Nat) (h : m < 10) : isDigitChar (digitChar m) = true := by
  rw [isDigitChar, digitChar, toNat_ofNat_valid (48 + m) (Or.inl (by omega))]
  simp
  omega

theorem natToDecimalGo_digits (n : Nat) :
    ∀ c ∈ natToDecimalGo n [], isDigitChar c = true := by
  induction n using Nat.strong_induction_on with
  | _ n ih =>
    by_cases h : n = 0
    · subst h
      rw [natToDecimalGo_zero]
      simp
    · rw [natToDecimalGo_step n h [],
        natToDecimalGo_append (n / 10) [digitChar (n % 10)]]
      intro c hc
      rcases List.mem_append.mp hc with hc | hc
      · exact ih (n / 10) (Nat.div_lt_self (Nat.pos_of_ne_zero h) (by omega)) c hc
      · simp at hc
        subst hc
        exact digitChar_isDigit (n % 10) (by omega)

theorem natToDecimal_digits (n : Nat) :
    ∀ c ∈ natToDecimal n, isDigitChar c = true := by
  rw [natToDecimal]
  by_cases h : n = 0
  · simp [h]
    decide
  · rw [if_neg h]
    exact natToDecimalGo_digits n

theorem natToDecimal_ne_nil (n : Nat) : natToDecimal n ≠ [] := by
  rw [natToDecimal]
  by_cases h : n = 0
  · simp [h]
  · rw [if_neg h, natToDecimalGo_step n h [], natToDecimalGo_append]
    simp

/-! ## The fragment regexes of `setEphemeralState`

`subpath.match(/page=(\d+)/)` and `subpath.match(/q=([^&]+)/)`:
leftmost match, greedy capture. -/

/-- Attempt of `page=(\d+)` anchored at the head of the list. -/
def pageMatchAt (l : List Char) : Option (List Char) :=
  if l.take 5 = ['p', 'a', 'g', 'e', '='] then
    let ds := (l.drop 5).takeWhile isDigitChar
    if ds.isEmpty then none else some ds
  else none

/-- Leftmost match of `page=(\d+)`: the captured digit run. -/
def firstPageCapture : List Char → Option (List Char)
  | [] => none
  | c :: rest =>
    match pageMatchAt (c :: rest) with
    | some ds => some ds
    | none => firstPageCapture rest

/-- Attempt of `q=([^&]+)` anchored at the head of the list. -/
def qMatchAt (l : List Char) : Option (List Char) :=
  if l.take 2 = ['q', '='] then
    let tok := (l.drop 2).takeWhile (fun c => c ≠ '&')
    if tok.isEmpty then none else some tok
  else none

/-- Leftmost match of `q=([^&]+)`: the captured token. -/
def firstQCapture : List Char → Option (List Char)
  | [] => none
  | c :: rest =>
    match qMatchAt (c :: rest) with
    | some t => some t
    | none => firstQCapture rest

theorem qMatchAt_not_q (c : Char) (hc : c ≠ 'q') (l : List Char) :
    qMatchAt (c :: l) = none := by
  rw [qMatchAt]
  rw [if_neg]
  intro hcontra
  cases l with
  | nil => simp at hcontra
  | cons d l2 =>
    simp only [List.take_succ_cons, List.cons.injEq] at hcontra
    exact hc hcontra.1

theorem firstQCapture_skip (pre l : List Char) (hpre : ∀ c ∈ pre, c ≠ 'q') :
    firstQCapture (pre ++ l) = firstQCapture l := by
  induction pre with
  | nil => simp
  | cons c pre2 ih =>
    have hc := hpre c (by simp)
    have ih2 := ih (fun x hx => hpre x (by simp [hx]))
    rw [List.cons_append, firstQCapture, qMatchAt_not_q c hc]
    exact ih2

theorem pageMatchAt_not_p (c : Char) (hc : c ≠ 'p') (l : List Char) :
    pageMatchAt (c :: l) = none := by
  rw [pageMatchAt]
  rw [if_neg]
  intro hcontra
  have : (c :: l).take 5 = c :: l.take 4 := by simp [List.take_succ_cons]
  rw [this] at hcontra
  simp only [List.cons.injEq] at hcontra
  exact hc hcontra.1

theorem firstPageCapture_skip (pre l : List Char) (hpre : ∀ c ∈ pre, c ≠ 'p') :
    firstPageCapture (pre ++ l) = firstPageCapture l := by
  induction pre with
  | nil => simp
  | cons c pre2 ih =>
    have hc := hpre c (by simp)
    have ih2 := ih (fun x hx => hpre x (by simp [hx]))
    rw [List.cons_append, firstPageCapture, pageMatchAt_not_p c hc]
    exact ih2

/-! ## Source models: the locator codec

`DjvuView.setEphemeralState` (decode) and the encoding chain of
`DjvuView.showSelectionContextMenu`. -/

/-- Result of running `setEphemeralState` on a subpath: either the
`URIError` thrown by the unprotected `decodeURIComponent` on line 128
escapes (`thrown`), or the parsed page and quote (either may be null). -/
inductive DecodeOutcome where
  | thrown
  | ok (page : Option Nat) (quote : Option (List Char))
deriving DecidableEq

/-- Model of `DjvuView.setEphemeralState`, lines 119-143:
`page` from `/page=(\d+)/` via `parseInt`; `highlight` from
`/q=([^&]+)/` via `decodeURIComponent` (outside any try, so a malformed
escape throws); then inside try/catch
`decodeURIComponent(escape(atob(highlight)))` with failures giving a
null quote. -/
def setEphemeralStateModel (subpath : List Char) : DecodeOutcome :=
  let page := (firstPageCapture subpath).map decimalVal
  match firstQCapture subpath with
  | none => DecodeOutcome.ok page none
  | some tok =>
    match decodeURIComponentChars tok with
    | none => DecodeOutcome.thrown
    | some highlight =>
      match atobChars highlight with
      | none => DecodeOutcome.ok page none
      | some bytes =>
        match decodeURIComponentChars (escapeChars (bytes.map Char.ofNat)) with
        | none => DecodeOutcome.ok page none
        | some q => DecodeOutcome.ok page (some q)

/-- Model of the token built in `showSelectionContextMenu`, line 371:
`encodeURIComponent(btoa(unescape(encodeURIComponent(text))))`.
`none` models a `btoa` throw (never reached on real input). -/
def encodedTextModel (text : List Char) : Option (List Char) :=
  (btoaStr (unescapeChars (encodeURIComponentChars text))).map encodeURIComponentChars

/-- The fragment part `page=<N>&q=<token>` of the link built on line 374. -/
def fragmentModel (page : Nat) (text : List Char) : Option (List Char) :=
  (encodedTextModel text).map (fun tok =>
    ['p', 'a', 'g', 'e', '='] ++ natToDecimal page ++ '&' :: 'q' :: '=' :: tok)

theorem encodedTextModel_eq (text : List Char) :
    encodedTextModel text =
      some (encodeURIComponentChars (btoaBytes (utf8Bytes text))) := by
  rw [encodedTextModel, unescape_encodeURIComponent, btoaStr]
  have hlt := utf8Bytes_lt_256 text
  have hall : ((utf8Bytes text).map Char.ofNat).all (fun c => c.toNat < 256) = true := by
    rw [List.all_eq_true]
    intro c hc
    simp only [List.mem_map] at hc
    obtain ⟨b, hb, rfl⟩ := hc
    simp only [decide_eq_true_eq]
    rw [toNat_ofNat_byte b (hlt b hb)]
    exact hlt b hb
  rw [if_pos hall]
  have hmm : ((utf8Bytes text).map Char.ofNat).map Char.toNat = utf8Bytes text := by
    rw [List.map_map]
    have : ∀ b ∈ utf8Bytes text, (Char.toNat ∘ Char.ofNat) b = id b := by
      intro b hb
      simp only [Function.comp_apply, id_eq]
      exact toNat_ofNat_byte b (hlt b hb)
    rw [List.map_congr_left this, List.map_id]
  rw [hmm]
  rfl

theorem btoaBytes_ne_nil (B : List Nat) (hB : B ≠ []) : btoaBytes B ≠ [] := by
  match B with
  | [] => exact absurd rfl hB
  | [b1] => simp [btoaBytes]
  | [b1, b2] => simp [btoaBytes]
  | b1 :: b2 :: b3 :: rest => simp [btoaBytes]

theorem utf8Bytes_ne_nil (s : List Char) (hs : s ≠ []) : utf8Bytes s ≠ [] := by
  match s with
  | [] => exact absurd rfl hs
  | c :: s2 =>
    rw [utf8Bytes_cons]
    intro hcontra
    exact absurd (List.append_eq_nil.mp hcontra).1 (utf8EncodeScalar_ne_nil c.toNat)

theorem encodeURIComponentChars_ne_nil (s : List Char) (hs : s ≠ []) :
    encodeURIComponentChars s ≠ [] := by
  match s with
  | [] => exact absurd rfl hs
  | c :: s2 =>
    rw [encodeURIComponentChars, List.flatMap_cons]
    intro hcontra
    obtain ⟨h1, _⟩ := List.append_eq_nil.mp hcontra
    by_cases hu : uriUnreserved c
    · rw [if_pos hu] at h1
      simp at h1
    · rw [if_neg hu] at h1
      cases he : utf8EncodeScalar c.toNat with
      | nil => exact absurd he (utf8EncodeScalar_ne_nil c.toNat)
      | cons b bs =>
        rw [he, List.flatMap_cons] at h1
        obtain ⟨h2, _⟩ := List.append_eq_nil.mp h1
        simp [percentByte] at h2

theorem hexDigitChar_ne_amp (n : Nat) (h : n < 16) : hexDigitChar n ≠ '&' := by
  interval_cases n <;> decide

theorem encodeURIComponentChars_no_amp (s : List Char) :
    ∀ c ∈ encodeURIComponentChars s, c ≠ '&' := by
  intro c hc
  rw [encodeURIComponentChars] at hc
  simp only [List.mem_flatMap] at hc
  obtain ⟨x, _, hcx⟩ := hc
  by_cases hu : uriUnreserved x
  · rw [if_pos hu] at hcx
    simp at hcx
    subst hcx
    intro he
    subst he
    exact absurd hu (by decide)
  · rw [if_neg hu] at hcx
    simp only [List.mem_flatMap] at hcx
    obtain ⟨b, hb, hcb⟩ := hcx
    have hb256 := utf8EncodeScalar_lt_256 x.toNat (char_isScalar x).1 b hb
    rw [percentByte] at hcb
    simp at hcb
    rcases hcb with rfl | rfl | rfl
    · decide
    · exact hexDigitChar_ne_amp (b / 16) (by omega)
    · exact hexDigitChar_ne_amp (b % 16) (by omega)

theorem takeWhile_all_self {α : Type} (p : α → Bool) (xs : List α)
    (h : ∀ x ∈ xs, p x = true) : xs.takeWhile p = xs := by
  induction xs with
  | nil => simp
  | cons x xs ih =>
    rw [List.takeWhile_cons, h x (by simp)]
    simp only [if_true]
    rw [ih (fun y hy => h y (by simp [hy]))]

theorem takeWhile_all_stop {α : Type} (p : α → Bool) (xs : List α) (y : α)
    (ys : List α) (hall : ∀ x ∈ xs, p x = true) (hy : p y = false) :
    (xs ++ y :: ys).takeWhile p = xs := by
  induction xs with
  | nil => simp [List.takeWhile_cons, hy]
  | cons x xs ih =>
    rw [List.cons_append, List.takeWhile_cons, hall x (by simp)]
    simp only [if_true]
    rw [ih (fun z hz => hall z (by simp [hz]))]

theorem firstPageCapture_cons (c : Char) (rest : List Char) :
    firstPageCapture (c :: rest) =
      match pageMatchAt (c :: rest) with
      | some ds => some ds
      | none => firstPageCapture rest := by
  rw [firstPageCapture]

theorem firstQCapture_cons (c : Char) (rest : List Char) :
    firstQCapture (c :: rest) =
      match qMatchAt (c :: rest) with
      | some t => some t
      | none => firstQCapture rest := by
  rw [firstQCapture]

theorem isDigitChar_ne_q (c : Char) (h : isDigitChar c = true) : c ≠ 'q' := by
  intro he
  subst he
  exact absurd h (by decide)

theorem firstPageCapture_built (P : Nat) (rest : List Char)
    (hrest : rest.head? = some '&') :
    firstPageCapture (['p', 'a', 'g', 'e', '='] ++ natToDecimal P ++ rest) =
      some (natToDecimal P) := by
  cases rest with
  | nil => simp at hrest
  | cons r rest2 =>
    simp only [List.head?_cons, Option.some.injEq] at hrest
    subst hrest
    have hm : pageMatchAt
        ('p' :: 'a' :: 'g' :: 'e' :: '=' :: (natToDecimal P ++ '&' :: rest2)) =
        some (natToDecimal P) := by
      rw [pageMatchAt]
      have ht5 : ('p' :: 'a' :: 'g' :: 'e' :: '=' ::
          (natToDecimal P ++ '&' :: rest2)).take 5 = ['p', 'a', 'g', 'e', '='] := by
        simp
      rw [if_pos ht5]
      have hd5 : ('p' :: 'a' :: 'g' :: 'e' :: '=' ::
          (natToDecimal P ++ '&' :: rest2)).drop 5 = natToDecimal P ++ '&' :: rest2 := by
        simp
      rw [hd5, takeWhile_all_stop isDigitChar (natToDecimal P) '&' rest2
        (natToDecimal_digits P) (by decide)]
      rw [if_neg (by simp [natToDecimal_ne_nil P])]
    simp only [List.cons_append, List.nil_append]
    rw [firstPageCapture_cons, hm]

/-- Quote capture on a well-formed built fragment. -/
theorem firstQCapture_built (P : Nat) (tok : List Char) (htok : tok ≠ [])
    (hnoamp : ∀ c ∈ tok, c ≠ '&') :
    firstQCapture (['p', 'a', 'g', 'e', '='] ++ natToDecimal P ++
      '&' :: 'q' :: '=' :: tok) = some tok := by
  have hpre : ∀ c ∈ ['p', 'a', 'g', 'e', '='] ++ natToDecimal P ++ ['&'],
      c ≠ 'q' := by
    intro c hc
    simp only [List.mem_append, List.mem_cons, List.not_mem_nil] at hc
    rcases hc with (hc | hc) | hc
    · rcases hc with rfl | rfl | rfl | rfl | rfl | h
      · decide
      · decide
      · decide
      · decide
      · decide
      · simp at h
    · exact isDigitChar_ne_q c (natToDecimal_digits P c hc)
    · rcases hc with rfl | h
      · decide
      · simp at h
  have hshape : ['p', 'a', 'g', 'e', '='] ++ natToDecimal P ++ '&' :: 'q' :: '=' :: tok =
      (['p', 'a', 'g', 'e', '='] ++ natToDecimal P ++ ['&']) ++ 'q' :: '=' :: tok := by
    simp
  rw [hshape, firstQCapture_skip _ _ hpre, firstQCapture_cons]
  have hm : qMatchAt ('q' :: '=' :: tok) = some tok := by
    rw [qMatchAt]
    rw [if_pos (by simp)]
    have hd : ('q' :: '=' :: tok).drop 2 = tok := by simp
    rw [hd, takeWhile_all_self _ tok (by
      intro c hc
      simp only [decide_eq_true_eq]
      exact hnoamp c hc)]
    rw [if_neg (by simp [htok])]
  rw [hm]

/-- Locator round trip for a nonempty quote: decoding the fragment built
by the selection context menu recovers exactly the page and quote. -/
theorem setEphemeralState_fragment_roundtrip (P : Nat) (Q : List Char)
    (hQ : Q ≠ []) :
    fragmentModel P Q =
      some (['p', 'a', 'g', 'e', '='] ++ natToDecimal P ++
        '&' :: 'q' :: '=' :: encodeURIComponentChars (btoaBytes (utf8Bytes Q))) ∧
    setEphemeralStateModel (['p', 'a', 'g', 'e', '='] ++ natToDecimal P ++
        '&' :: 'q' :: '=' :: encodeURIComponentChars (btoaBytes (utf8Bytes Q))) =
      DecodeOutcome.ok (some P) (some Q) := by
  constructor
  · rw [fragmentModel, encodedTextModel_eq]
    rfl
  · have htokne : encodeURIComponentChars (btoaBytes (utf8Bytes Q)) ≠ [] :=
      encodeURIComponentChars_ne_nil _
        (btoaBytes_ne_nil _ (utf8Bytes_ne_nil Q hQ))
    have hnoamp := encodeURIComponentChars_no_amp (btoaBytes (utf8Bytes Q))
    have h1 := firstQCapture_built P (encodeURIComponentChars (btoaBytes (utf8Bytes Q)))
      htokne hnoamp
    have h2 := decodeURIComponent_encodeURIComponent (btoaBytes (utf8Bytes Q))
    have h3 := atobChars_btoaBytes (utf8Bytes Q) (utf8Bytes_lt_256 Q)
    have h4 := decodeURIComponent_escape_utf8 Q
    have h5 := firstPageCapture_built P
      ('&' :: 'q' :: '=' :: encodeURIComponentChars (btoaBytes (utf8Bytes Q))) (by simp)
    rw [setEphemeralStateModel]
    simp only [h1, h2, h3, h4, h5]
    simp [decimalVal_natToDecimal P]

/-! ## Position store (`DjVuReaderPlugin`, src/main.ts)

`data.filePages` is a record from file path to last viewed page;
`getFilePage` returns `filePages[filePath] ?? null`; `setFilePage`
mutates the record and awaits `saveData`. -/

/-- Association lookup in the `filePages` record. -/
def lookupPage : List (List Char × Nat) → List Char → Option Nat
  | [], _ => none
  | (k, v) :: rest, path => if k = path then some v else lookupPage rest path

/-- `DjVuReaderPlugin.getFilePage`: `this.data.filePages[filePath] ?? null`. -/
def getFilePage (filePages : List (List Char × Nat)) (path : List Char) : Option Nat :=
  lookupPage filePages path

/-- Record update `this.data.filePages[filePath] = page`. -/
def storePage : List (List Char × Nat) → List Char → Nat → List (List Char × Nat)
  | [], path, page => [(path, page)]
  | (k, v) :: rest, path, page =>
    if k = path then (k, page) :: rest else (k, v) :: storePage rest path page

/-- Result of the async `setFilePage` call (the promise of `saveData`). -/
inductive PromiseResult where
  | resolved
  | rejected (msg : List Char)
deriving DecidableEq

/-- `DjVuReaderPlugin.setFilePage`: updates the in-memory record, then
awaits `saveData`; a `saveData` failure rejects the returned promise. -/
def setFilePageModel (filePages : List (List Char × Nat)) (path : List Char)
    (page : Nat) (saveFailure : Option (List Char)) :
    List (List Char × Nat) × PromiseResult :=
  (storePage filePages path page,
    match saveFailure with
    | none => PromiseResult.resolved
    | some e => PromiseResult.rejected e)

/-- What the `DJVU_PAGE_CHANGED` branch of the message handler does with
a position write (`void this.plugin.setFilePage(file.path, data.page)`,
line 297): the promise is discarded with `void`. -/
structure FireAndForget where
  newStore : List (List Char × Nat)
  promise : PromiseResult
  rejectionHandledByCode : Bool
  loggedByCode : Bool
  threwIntoCaller : Bool
deriving DecidableEq

/-- Model of the position write performed by the `DJVU_PAGE_CHANGED`
handler.  The call site has no try/catch, no `.catch` handler and no
logging statement, and `void` discards the promise, so the rejection is
unhandled; the handler itself returns normally either way. -/
def pageChangedSave (filePages : List (List Char × Nat)) (path : List Char)
    (page : Nat) (saveFailure : Option (List Char)) : FireAndForget :=
  let (store2, pr) := setFilePageModel filePages path page saveFailure
  { newStore := store2
    promise := pr
    rejectionHandledByCode := false
    loggedByCode := false
    threwIntoCaller := false }

/-! ## Page resolution (`DjvuView.onLoadFile` and `DjvuView.render`) -/

/-- The `??` (nullish coalescing) of the source. -/
def jsNullish {α : Type} (a b : Option α) : Option α :=
  match a with
  | some x => some x
  | none => b

/-- `DjvuView.onLoadFile`, line 156: `this.pendingPage ?? savedPage`. -/
def onLoadFilePage (pendingPage savedPage : Option Nat) : Option Nat :=
  jsNullish pendingPage savedPage

/-- `DjvuView.render`, line 331: after the settle delay,
`this.pendingPage ?? page`. -/
def renderFinalPage (pendingNow page : Option Nat) : Option Nat :=
  jsNullish pendingNow page

/-- The iframe script, line 456: `msg.page ? { pageNumber: msg.page } : {}`
(JavaScript truthiness: `null` and `0` give the empty config). -/
def iframeConfigPage (msgPage : Option Nat) : Option Nat :=
  match msgPage with
  | some p => if p ≠ 0 then some p else none
  | none => none

/-- Modelled from the spec: the vendored DjVu.js viewer (not part of
src/) opens a freshly loaded document at page 1 when its `loadDocument`
config carries no `pageNumber`; the spec states the caller-side default
is page 1. -/
def viewerOpenPage (config : Option Nat) : Nat :=
  match config with
  | some p => p
  | none => 1

/-- End-to-end resolved open page for a load with no late ephemeral
state: link-pending page, else stored position, else viewer default. -/
def resolvedOpenPage (pendingPage savedPage : Option Nat) : Nat :=
  viewerOpenPage (iframeConfigPage
    (renderFinalPage none (onLoadFilePage pendingPage savedPage)))

/-! ## Session state machine (`DjvuView.render` / `cleanup` / message
handler)

One record per `DjvuView` instance.  Observable side effects are
returned as explicit actions.  The iframe whose `contentWindow` is live
is identified by the sequence number of the render that attached it. -/

/-- The mutable fields of `DjvuView` that the session machinery touches. -/
structure ViewState where
  renderSeq : Nat
  initWait : Option Nat
  handlerSeq : Option Nat
  iframeSeq : Option Nat
  pendingPage : Option Nat
  pendingHighlight : Option (List Char)
  activeMenu : Bool
  hasContent : Bool
deriving DecidableEq

/-- Observable side effects of the session machinery. -/
inductive Action where
  | removeListener (seq : Nat)
  | addListener (seq : Nat)
  | clearInitTimeout
  | emptyContent
  | readyResolved (seq : Nat)
  | errorRejected (seq : Nat)
  | loadSent (seq : Nat) (page : Option Nat) (highlight : Option (List Char))
  | savePage (page : Nat)
  | menuShown
  | menuHidden
deriving DecidableEq

/-- `DjvuView.cleanup`, lines 188-204: remove the message listener if
one is installed, clear the init-timeout if a wait is pending, null the
iframe reference and empty the container. -/
def cleanup (v : ViewState) : ViewState × List Action :=
  ({ v with
      handlerSeq := none
      initWait := none
      iframeSeq := none
      hasContent := false },
    (match v.handlerSeq with
     | some s => [Action.removeListener s]
     | none => []) ++
    (match v.initWait with
     | some _ => [Action.clearInitTimeout]
     | none => []) ++
    [Action.emptyContent])

/-- `DjvuView.render`, lines 246-317, up to the handshake wait: mint the
next sequence number, clean up the previous session, build the new
container and iframe, install the message handler bound to the new
sequence and start the ready wait. -/
def startRender (v : ViewState) : ViewState × Nat × List Action :=
  let seq := v.renderSeq + 1
  let (v1, acts) := cleanup { v with renderSeq := seq }
  ({ v1 with
      hasContent := true
      iframeSeq := some seq
      handlerSeq := some seq
      initWait := some seq },
    seq, acts ++ [Action.addListener seq])

/-- A protocol message from an iframe, as received by the window
listener.  `srcSeq` identifies the iframe that posted it (the
`evt.source === iframe.contentWindow` check). -/
inductive Msg where
  | ready
  | error (m : List Char)
  | contextMenu (text : List Char) (page : Nat)
  | pageChanged (page : Nat)
  | click
deriving DecidableEq

/-- The message handler installed by `render` (lines 272-307).  The
handler closure captures the sequence `seq` of its own render and its
own iframe; a message is processed only if a handler is installed and
the message source is that handler's iframe. -/
def deliver (v : ViewState) (srcSeq : Nat) (m : Msg) : ViewState × List Action :=
  match v.handlerSeq with
  | none => (v, [])
  | some h =>
    if srcSeq ≠ h then (v, [])
    else
      match m with
      | Msg.ready =>
        if v.initWait = some h then
          ({ v with initWait := none }, [Action.clearInitTimeout, Action.readyResolved h])
        else (v, [])
      | Msg.error _ =>
        if v.initWait = some h then
          ({ v with initWait := none }, [Action.clearInitTimeout, Action.errorRejected h])
        else (v, [])
      | Msg.contextMenu _ _ =>
        ({ v with activeMenu := true }, [Action.menuShown])
      | Msg.pageChanged p =>
        (v, [Action.savePage p])
      | Msg.click =>
        if v.activeMenu then ({ v with activeMenu := false }, [Action.menuHidden])
        else (v, [])

/-- The continuation of `render` resumed when the payload read
completes (line 321-324): the stale-sequence guard
`if (seq !== this.renderSeq) return`. -/
def resumeAfterBuffer (v : ViewState) (seq : Nat) : ViewState × Bool :=
  if seq ≠ v.renderSeq then (v, false) else (v, true)

/-- The continuation of `render` resumed after the 50 ms settle delay
(lines 331-339): read and clear the pending link intent, then post
`LOAD_DJVU` through the captured iframe — whose `contentWindow` is only
live if that iframe is still the attached one. -/
def resumeAfterSettle (v : ViewState) (seq : Nat) (page : Option Nat)
    (highlight : Option (List Char)) : ViewState × List Action :=
  let finalPage := jsNullish v.pendingPage page
  let finalHighlight := jsNullish v.pendingHighlight highlight
  ({ v with pendingPage := none, pendingHighlight := none },
    if v.iframeSeq = some seq then [Action.loadSent seq finalPage finalHighlight]
    else [])

/-- The settle delay before `resumeAfterSettle`, line 328. -/
def settleDelayMs : Nat := 50

/-- The handshake timeout, line 316. -/
def initTimeoutMs : Nat := 15000

/-- `DjvuView.onLoadFile`, lines 151-164: resolve page and highlight
from pending link state and the stored position, clear the pending
state, and start a render with the result. -/
def onLoadFileModel (v : ViewState) (savedPage : Option Nat) :
    ViewState × Option Nat × Option (List Char) :=
  ({ v with pendingPage := none, pendingHighlight := none },
    jsNullish v.pendingPage savedPage, v.pendingHighlight)

/-- `DjvuView.setEphemeralState` effect on the pending fields: the page
is only overwritten when one was parsed; the highlight is overwritten
whenever a `q` token was present (with `null` when its decoding threw). -/
def applyEphemeral (v : ViewState) (page : Option Nat)
    (quote : Option (Option (List Char))) : ViewState :=
  { v with
    pendingPage := (match page with
      | some p => some p
      | none => v.pendingPage)
    pendingHighlight := (match quote with
      | some q => q
      | none => v.pendingHighlight) }

/-- One complete, non-interleaved document open: optional link ephemeral
state arriving first, then `onLoadFile`, then the render up to the
`LOAD_DJVU` post (handshake and payload assumed to complete normally,
no second open racing). -/
def openDocument (v : ViewState)
    (ephemeral : Option (Option Nat × Option (Option (List Char))))
    (savedPage : Option Nat) : ViewState × List Action :=
  let v0 := match ephemeral with
    | some (p, q) => applyEphemeral v p q
    | none => v
  let (v1, page, highlight) := onLoadFileModel v0 savedPage
  let (v2, seq, acts1) := startRender v1
  let (v3, ok) := resumeAfterBuffer v2 seq
  if ok then
    let (v4, acts2) := resumeAfterSettle v3 seq page highlight
    (v4, acts1 ++ acts2)
  else (v3, acts1)

/-! ## Fuzzy text locator (`highlightText` / `tryHighlight` in the
iframe document, `buildIframeSrcdoc` lines 472-511)

The DOM text layer is abstracted as the list of span texts (the code
keeps only spans with non-blank text, so fragments are non-blank).
JavaScript `\s` and `toLowerCase` are modelled with the ECMAScript
whitespace class and the ASCII case fold (the fixed fold the spec
names; non-ASCII letters are left unchanged by this model). -/

/-- The ECMAScript `\s` class: WhiteSpace and LineTerminator. -/
def isJsWs (c : Char) : Bool :=
  c.toNat = 9 || c.toNat = 10 || c.toNat = 11 || c.toNat = 12 ||
  c.toNat = 13 || c.toNat = 32 || c.toNat = 160 || c.toNat = 0x1680 ||
  (0x2000 ≤ c.toNat && c.toNat ≤ 0x200A) || c.toNat = 0x2028 ||
  c.toNat = 0x2029 || c.toNat = 0x202F || c.toNat = 0x205F ||
  c.toNat = 0x3000 || c.toNat = 0xFEFF

/-- ASCII case fold. -/
def asciiToLower (c : Char) : Char :=
  if 65 ≤ c.toNat ∧ c.toNat ≤ 90 then Char.ofNat (c.toNat + 32) else c

/-- `x.replace(/\s+/g, '').toLowerCase()`. -/
def stripWsLower (s : List Char) : List Char :=
  (s.filter (fun c => !isJsWs c)).map asciiToLower

/-- `String.prototype.indexOf`: leftmost occurrence index, `none` for
-1. -/
def subIndex (needle : List Char) : List Char → Option Nat
  | [] => if needle.isPrefixOf ([] : List Char) then some 0 else none
  | c :: rest =>
    if needle.isPrefixOf (c :: rest) then some 0
    else (subIndex needle rest).map (· + 1)

/-- Buffer start offsets of each fragment (the `map` array of the code:
`map.push({ el: s, start: text.length }); text += s.textContent`). -/
def fragStartsFrom : List (List Char) → Nat → List Nat
  | [], _ => []
  | f :: fs, acc => acc :: fragStartsFrom fs (acc + f.length)

/-- The offset-mapping loop of `highlightText` (lines 493-500),
translated statement by statement: walk the original text, counting only
non-whitespace characters; record `startChar` at count `idx` and
`endChar` (and break) at count `idx + len - 1`. -/
def mapLoopGo (idx len : Nat) : List Char → Nat → Nat → Nat → Nat → Nat × Nat
  | [], _, _, sc, ec => (sc, ec)
  | c :: rest, i, pos, sc, ec =>
    if ¬(pos ≤ idx + len) then (sc, ec)
    else if isJsWs c then mapLoopGo idx len rest (i + 1) pos sc ec
    else
      let sc2 := if pos = idx then i else sc
      if (pos : Int) = (idx : Int) + (len : Int) - 1 then (sc2, i + 1)
      else mapLoopGo idx len rest (i + 1) (pos + 1) sc2 ec

/-- Result of one `highlightText` matching pass over a present text
layer. -/
inductive HighlightOutcome where
  | noMatch
  | marked (marks : List Bool) (startChar endChar : Nat)
deriving DecidableEq

/-- One matching pass of `highlightText` over the fragment list:
normalize, find the leftmost normalized occurrence, map it back to
original offsets, and mark the fragments whose span overlaps.  `noMatch`
is the silent `if (idx === -1) return`. -/
def highlightMatch (frags : List (List Char)) (query : List Char) :
    HighlightOutcome :=
  let text := frags.flatMap id
  let starts := fragStartsFrom frags 0
  let search := stripWsLower query
  match subIndex search (stripWsLower text) with
  | none => HighlightOutcome.noMatch
  | some idx =>
    let p := mapLoopGo idx search.length text 0 0 0 text.length
    let marks := (List.range frags.length).map (fun i =>
      let st := (starts.getD i 0)
      let en := starts.getD (i + 1) text.length
      decide (en > p.1 ∧ st < p.2))
    HighlightOutcome.marked marks p.1 p.2

/-- The retry interval of `tryHighlight` (line 481). -/
def retryDelayMs : Nat := 300

/-- The retry cap of `tryHighlight` (line 481: `attempts++ < 20`). -/
def retryCap : Nat := 20

/-- Outcome of the whole `tryHighlight` retry loop. -/
inductive TryOutcome where
  | gaveUp
  | finished (o : HighlightOutcome)
deriving DecidableEq

/-- The `tryHighlight` loop, fuelled (structurally) on the remaining
retry budget: at each invocation `k` the text layer holds `frags k`
fragments; while none exist, schedule a retry after `retryDelayMs` as
long as `attempts` has not reached `retryCap`.  Returns the outcome and
the list of scheduled retry delays. -/
def tryHighlightFuel (frags : Nat → List (List Char)) (query : List Char) :
    Nat → Nat → Nat → TryOutcome × List Nat
  | 0, _, _ => (TryOutcome.gaveUp, [])
  | fuel + 1, k, attempts =>
    if (frags k).isEmpty then
      if attempts < retryCap then
        let r := tryHighlightFuel frags query fuel (k + 1) (attempts + 1)
        (r.1, retryDelayMs :: r.2)
      else (TryOutcome.gaveUp, [])
    else (TryOutcome.finished (highlightMatch (frags k) query), [])

/-- `highlightText`: run `tryHighlight` starting with zero attempts.
A fuel of `retryCap + 1` covers every reachable invocation. -/
def tryHighlightModel (frags : Nat → List (List Char)) (query : List Char) :
    TryOutcome × List Nat :=
  tryHighlightFuel frags query (retryCap + 1) 0 0

/-! ## Selection-to-citation builder (`showSelectionContextMenu`,
lines 363-392) -/

/-- `text.replace(/\r\n/g, "\n")`: leftmost, non-overlapping global
replacement. -/
def replaceCRLF : List Char → List Char
  | [] => []
  | '\r' :: '\n' :: rest => '\n' :: replaceCRLF rest
  | c :: rest => c :: replaceCRLF rest

/-- `.replace(/\r/g, "\n")` after the CRLF pass. -/
def normalizeNewlines (text : List Char) : List Char :=
  (replaceCRLF text).map (fun c => if c = '\r' then '\n' else c)

/-- `String.prototype.split("\n")`. -/
def splitNl : List Char → List (List Char)
  | [] => [[]]
  | '\n' :: rest => [] :: splitNl rest
  | c :: rest =>
    match splitNl rest with
    | l :: ls => (c :: l) :: ls
    | [] => [[c]]

/-- `String.prototype.trimEnd` (WhiteSpace and LineTerminator). -/
def jsTrimEnd (l : List Char) : List Char :=
  (l.reverse.dropWhile isJsWs).reverse

/-- Line 377: split on any newline convention and prefix each line as a
quotation, trimming trailing whitespace per line. -/
def quoteLinesModel (text : List Char) : List (List Char) :=
  (splitNl (normalizeNewlines text)).map (fun l => jsTrimEnd ('>' :: ' ' :: l))

/-- Line 374: the full selection link
`[[<path>#page=<N>&q=<tok>|<name> (page <N>)]]`. -/
def linkWithHighlightModel (path name : List Char) (page : Nat)
    (text : List Char) : Option (List Char) :=
  (encodedTextModel text).map (fun tok =>
    "[[".data ++ path ++ "#page=".data ++ natToDecimal page ++ "&q=".data ++
      tok ++ "|".data ++ name ++ " (page ".data ++ natToDecimal page ++ ")]]".data)

/-- Line 378: the blockquote clipboard payload
`quoteLines.join("\n") + "\n\n" + linkWithHighlight`. -/
def quoteClipboardModel (path name : List Char) (page : Nat)
    (text : List Char) : Option (List Char) :=
  (linkWithHighlightModel path name page text).map (fun link =>
    List.intercalate ['\n'] (quoteLinesModel text) ++ ['\n', '\n'] ++ link)

/-- The guard of `showSelectionContextMenu`, line 364:
`if (!this.file || !this.iframeEl || !text) return;` — with a file, an
iframe and non-empty text the three clipboard artifacts are offered. -/
def showSelectionContextMenuModel (hasFile hasIframe : Bool)
    (path name : List Char) (page : Nat) (text : List Char) :
    Option (List Char × Option (List Char) × Option (List Char)) :=
  if ¬hasFile ∨ ¬hasIframe ∨ text = [] then none
  else some (text, quoteClipboardModel path name page text,
    linkWithHighlightModel path name page text)

/-! ## Specification lemmas for the fuzzy locator -/

theorem subIndex_some_spec (needle : List Char) :
    ∀ (hay : List Char) (i : Nat), subIndex needle hay = some i →
      needle.isPrefixOf (hay.drop i) = true ∧
      ∀ j < i, needle.isPrefixOf (hay.drop j) = false := by
  intro hay
  induction hay with
  | nil =>
    intro i h
    rw [subIndex] at h
    by_cases hp : needle.isPrefixOf ([] : List Char)
    · rw [if_pos hp] at h
      cases h
      exact ⟨hp, by omega⟩
    · rw [if_neg hp] at h
      cases h
  | cons c rest ih =>
    intro i h
    rw [subIndex] at h
    by_cases hp : needle.isPrefixOf (c :: rest)
    · rw [if_pos hp] at h
      cases h
      exact ⟨hp, by omega⟩
    · rw [if_neg hp] at h
      simp only [Option.map_eq_some'] at h
      obtain ⟨i2, hi2, rfl⟩ := h
      obtain ⟨h1, h2⟩ := ih i2 hi2
      constructor
      · simpa using h1
      · intro j hj
        cases j with
        | zero =>
          simp only [List.drop_zero]
          exact Bool.eq_false_iff.mpr hp
        | succ j2 =>
          have := h2 j2 (by omega)
          simpa using this

theorem subIndex_none_spec (needle : List Char) :
    ∀ hay : List Char, subIndex needle hay = none →
      ∀ j, needle.isPrefixOf (hay.drop j) = false := by
  intro hay
  induction hay with
  | nil =>
    intro h j
    rw [subIndex] at h
    by_cases hp : needle.isPrefixOf ([] : List Char)
    · rw [if_pos hp] at h
      cases h
    · rw [if_neg hp] at h
      simpa using Bool.eq_false_iff.mpr hp
  | cons c rest ih =>
    intro h j
    rw [subIndex] at h
    by_cases hp : needle.isPrefixOf (c :: rest)
    · rw [if_pos hp] at h
      cases h
    · rw [if_neg hp] at h
      simp only [Option.map_eq_none'] at h
      cases j with
      | zero => simpa using Bool.eq_false_iff.mpr hp
      | succ j2 => simpa using ih h j2

theorem subIndex_length_le (needle : List Char) :
    ∀ (hay : List Char) (i : Nat), subIndex needle hay = some i →
      i + needle.length ≤ hay.length := by
  intro hay
  induction hay with
  | nil =>
    intro i h
    rw [subIndex] at h
    by_cases hp : needle.isPrefixOf ([] : List Char)
    · rw [if_pos hp] at h
      cases h
      have := (List.isPrefixOf_iff_prefix.mp hp).length_le
      simpa using this
    · rw [if_neg hp] at h
      cases h
  | cons c rest ih =>
    intro i h
    rw [subIndex] at h
    by_cases hp : needle.isPrefixOf (c :: rest)
    · rw [if_pos hp] at h
      cases h
      have := (List.isPrefixOf_iff_prefix.mp hp).length_le
      simp at this ⊢
      omega
    · rw [if_neg hp] at h
      simp only [Option.map_eq_some'] at h
      obtain ⟨i2, hi2, rfl⟩ := h
      have := ih i2 hi2
      simp
      omega

/-- Indices of the non-whitespace characters, counting from `i`. -/
def nonWsIdxFrom : List Char → Nat → List Nat
  | [], _ => []
  | c :: rest, i =>
    if isJsWs c then nonWsIdxFrom rest (i + 1)
    else i :: nonWsIdxFrom rest (i + 1)

theorem nonWsIdxFrom_length (text : List Char) :
    ∀ i, (nonWsIdxFrom text i).length = (text.filter (fun c => !isJsWs c)).length := by
  induction text with
  | nil => intro i; rfl
  | cons c rest ih =>
    intro i
    rw [nonWsIdxFrom, List.filter_cons]
    by_cases hw : isJsWs c
    · simp [hw, ih]
    · simp [hw, ih]

theorem nonWsIdxFrom_ge (text : List Char) :
    ∀ i, ∀ x ∈ nonWsIdxFrom text i, i ≤ x := by
  induction text with
  | nil => intro i x hx; simp [nonWsIdxFrom] at hx
  | cons c rest ih =>
    intro i x hx
    rw [nonWsIdxFrom] at hx
    by_cases hw : isJsWs c
    · rw [if_pos hw] at hx
      have := ih (i + 1) x hx
      omega
    · rw [if_neg hw] at hx
      rcases List.mem_cons.mp hx with rfl | hx2
      · exact le_refl _
      · have := ih (i + 1) x hx2
        omega

theorem nonWsIdxFrom_sorted (text : List Char) :
    ∀ i, (nonWsIdxFrom text i).Pairwise (· < ·) := by
  induction text with
  | nil => intro i; simp [nonWsIdxFrom]
  | cons c rest ih =>
    intro i
    rw [nonWsIdxFrom]
    by_cases hw : isJsWs c
    · rw [if_pos hw]
      exact ih (i + 1)
    · rw [if_neg hw]
      refine List.Pairwise.cons ?_ (ih (i + 1))
      intro x hx
      have := nonWsIdxFrom_ge rest (i + 1) x hx
      omega

theorem nonWsIdxFrom_getD_mono (text : List Char) (i : Nat) (j k : Nat)
    (hjk : j ≤ k) (hk : k < (nonWsIdxFrom text i).length) :
    (nonWsIdxFrom text i).getD j 0 ≤ (nonWsIdxFrom text i).getD k 0 := by
  rcases eq_or_lt_of_le hjk with rfl | hlt
  · exact le_refl _
  · have hp := nonWsIdxFrom_sorted text i
    rw [List.pairwise_iff_get] at hp
    have := hp ⟨j, by omega⟩ ⟨k, hk⟩ (by simpa using hlt)
    rw [List.getD_eq_getElem _ _ (by omega), List.getD_eq_getElem _ _ hk]
    simp only [List.get_eq_getElem] at this
    omega

theorem mapLoopGo_phase2 (idx len : Nat) :
    ∀ (rest : List Char) (i pos sc ec : Nat),
      idx < pos → pos + 1 ≤ idx + len →
      idx + len - pos ≤ (nonWsIdxFrom rest i).length →
      mapLoopGo idx len rest i pos sc ec =
        (sc, (nonWsIdxFrom rest i).getD (idx + len - 1 - pos) 0 + 1) := by
  intro rest
  induction rest with
  | nil =>
    intro i pos sc ec h1 h2 h3
    simp [nonWsIdxFrom] at h3
    omega
  | cons c rest2 ih =>
    intro i pos sc ec h1 h2 h3
    rw [mapLoopGo]
    rw [if_neg (by omega)]
    by_cases hw : isJsWs c
    · rw [if_pos hw]
      rw [nonWsIdxFrom, if_pos hw] at h3 ⊢
      exact ih (i + 1) pos sc ec h1 h2 h3
    · rw [if_neg hw]
      rw [nonWsIdxFrom, if_neg hw] at h3 ⊢
      have hsc2 : (if pos = idx then i else sc) = sc := by
        rw [if_neg (by omega)]
      rw [hsc2]
      by_cases hbreak : (pos : Int) = (idx : Int) + (len : Int) - 1
      · rw [if_pos hbreak]
        have : idx + len - 1 - pos = 0 := by omega
        rw [this]
        rfl
      · rw [if_neg hbreak]
        have h2b : pos + 1 + 1 ≤ idx + len := by omega
        have h3b : idx + len - (pos + 1) ≤ (nonWsIdxFrom rest2 (i + 1)).length := by
          simp at h3
          omega
        rw [ih (i + 1) (pos + 1) sc ec (by omega) h2b h3b]
        have : idx + len - 1 - pos = (idx + len - 1 - (pos + 1)) + 1 := by omega
        rw [this]
        rfl

theorem mapLoopGo_phase1 (idx len : Nat) (hlen : 1 ≤ len) :
    ∀ (rest : List Char) (i pos sc ec : Nat),
      pos ≤ idx →
      idx - pos + len ≤ (nonWsIdxFrom rest i).length →
      mapLoopGo idx len rest i pos sc ec =
        ((nonWsIdxFrom rest i).getD (idx - pos) 0,
         (nonWsIdxFrom rest i).getD (idx - pos + len - 1) 0 + 1) := by
  intro rest
  induction rest with
  | nil =>
    intro i pos sc ec h1 h2
    simp [nonWsIdxFrom] at h2
    omega
  | cons c rest2 ih =>
    intro i pos sc ec h1 h2
    rw [mapLoopGo]
    rw [if_neg (by omega)]
    by_cases hw : isJsWs c
    · rw [if_pos hw]
      rw [nonWsIdxFrom, if_pos hw] at h2 ⊢
      exact ih (i + 1) pos sc ec h1 h2
    · rw [if_neg hw]
      rw [nonWsIdxFrom, if_neg hw] at h2 ⊢
      by_cases hpi : pos = idx
      · subst hpi
        have hsc2 : (if pos = pos then i else sc) = i := by rw [if_pos rfl]
        rw [hsc2]
        by_cases hbreak : (pos : Int) = (pos : Int) + (len : Int) - 1
        · rw [if_pos hbreak]
          have hl1 : len = 1 := by omega
          subst hl1
          simp
        · rw [if_neg hbreak]
          have hlen2 : 2 ≤ len := by omega
          rw [mapLoopGo_phase2 pos len rest2 (i + 1) (pos + 1) i ec
            (by omega) (by omega) (by simp at h2; omega)]
          have e1 : pos - pos + len - 1 = (len - 2) + 1 := by omega
          rw [e1]
          have e0 : pos - pos = 0 := by omega
          rw [e0]
          have e2 : pos + len - 1 - (pos + 1) = len - 2 := by omega
          rw [e2]
          simp
      · have hsc2 : (if pos = idx then i else sc) = sc := by rw [if_neg hpi]
        rw [hsc2]
        by_cases hbreak : (pos : Int) = (idx : Int) + (len : Int) - 1
        · exfalso
          omega
        · rw [if_neg hbreak]
          rw [ih (i + 1) (pos + 1) sc ec (by omega) (by simp at h2; omega)]
          have e1 : idx - pos + len - 1 = (idx - (pos + 1) + len - 1) + 1 := by omega
          rw [e1]
          have e0 : idx - pos = (idx - (pos + 1)) + 1 := by omega
          rw [e0]
          simp

theorem fragStartsFrom_length (frags : List (List Char)) :
    ∀ a, (fragStartsFrom frags a).length = frags.length := by
  induction frags with
  | nil => intro a; rfl
  | cons f fs ih => intro a; simp [fragStartsFrom, ih]

/-- Each fragment span runs from its start offset to start plus length;
the next fragment (or the buffer end) begins exactly there. -/
theorem fragStartsFrom_span (frags : List (List Char)) :
    ∀ (a : Nat) (i : Nat), i < frags.length →
      (fragStartsFrom frags a).getD (i + 1) (a + (frags.flatMap id).length) =
        (fragStartsFrom frags a).getD i 0 + (frags.getD i []).length := by
  induction frags with
  | nil => intro a i hi; simp at hi
  | cons f fs ih =>
    intro a i hi
    rw [fragStartsFrom]
    cases i with
    | zero =>
      cases fs with
      | nil =>
        simp [fragStartsFrom]
      | cons g gs =>
        simp [fragStartsFrom]
    | succ i2 =>
      have hi2 : i2 < fs.length := by simp at hi; omega
      have := ih (a + f.length) i2 hi2
      simp only [List.getD_cons_succ]
      rw [← this]
      congr 1
      simp
      omega

/-! ## Support lemmas for the claims -/

theorem getFilePage_storePage (store : List (List Char × Nat))
    (path : List Char) (page : Nat) :
    getFilePage (storePage store path page) path = some page := by
  induction store with
  | nil => simp [getFilePage, storePage, lookupPage]
  | cons e rest ih =>
    obtain ⟨k, v⟩ := e
    rw [storePage]
    by_cases hk : k = path
    · rw [if_pos hk, getFilePage, lookupPage, if_pos hk]
    · rw [if_neg hk, getFilePage, lookupPage, if_neg hk]
      exact ih

theorem tryHighlightFuel_bound (frags : Nat → List (List Char))
    (query : List Char) :
    ∀ (fuel k a : Nat),
      (tryHighlightFuel frags query fuel k a).2.length ≤ retryCap - a ∧
      ∀ d ∈ (tryHighlightFuel frags query fuel k a).2, d = retryDelayMs := by
  intro fuel
  induction fuel with
  | zero =>
    intro k a
    simp [tryHighlightFuel]
  | succ f ih =>
    intro k a
    rw [tryHighlightFuel]
    by_cases he : (frags k).isEmpty
    · rw [if_pos he]
      by_cases ha : a < retryCap
      · rw [if_pos ha]
        obtain ⟨ih1, ih2⟩ := ih (k + 1) (a + 1)
        constructor
        · simp
          omega
        · intro d hd
          simp at hd
          rcases hd with rfl | hd
          · rfl
          · exact ih2 d hd
      · rw [if_neg ha]
        simp
    · rw [if_neg he]
      simp

theorem tryHighlightFuel_first (frags : Nat → List (List Char))
    (query : List Char) :
    ∀ (j fuel k a : Nat), (∀ i < j, frags (k + i) = []) → frags (k + j) ≠ [] →
      a + j ≤ retryCap → j < fuel →
      tryHighlightFuel frags query fuel k a =
        (TryOutcome.finished (highlightMatch (frags (k + j)) query),
         List.replicate j retryDelayMs) := by
  intro j
  induction j with
  | zero =>
    intro fuel k a _ hne _ hfuel
    obtain ⟨f, rfl⟩ : ∃ f, fuel = f + 1 := ⟨fuel - 1, by omega⟩
    rw [tryHighlightFuel]
    rw [if_neg (by simpa using hne)]
    simp
  | succ j2 ih =>
    intro fuel k a hempty hne hcap hfuel
    obtain ⟨f, rfl⟩ : ∃ f, fuel = f + 1 := ⟨fuel - 1, by omega⟩
    rw [tryHighlightFuel]
    have h0 : frags k = [] := by
      have := hempty 0 (by omega)
      simpa using this
    rw [if_pos (by simp [h0])]
    rw [if_pos (by omega)]
    have ih2 := ih f (k + 1) (a + 1)
      (by
        intro i hi
        have := hempty (i + 1) (by omega)
        simpa [Nat.add_assoc, Nat.add_comm 1 i] using this)
      (by
        have : k + 1 + j2 = k + (j2 + 1) := by omega
        rw [this]
        exact hne)
      (by omega) (by omega)
    rw [ih2]
    have : k + 1 + j2 = k + (j2 + 1) := by omega
    rw [this]
    rfl

theorem tryHighlightFuel_allEmpty (frags : Nat → List (List Char))
    (query : List Char) (hall : ∀ i, frags i = []) :
    ∀ (fuel k a : Nat), a ≤ retryCap → retryCap - a < fuel →
      tryHighlightFuel frags query fuel k a =
        (TryOutcome.gaveUp, List.replicate (retryCap - a) retryDelayMs) := by
  intro fuel
  induction fuel with
  | zero => intro k a _ h; omega
  | succ f ih =>
    intro k a ha hf
    rw [tryHighlightFuel]
    rw [if_pos (by simp [hall k])]
    by_cases hlt : a < retryCap
    · rw [if_pos hlt]
      rw [ih (k + 1) (a + 1) (by omega) (by omega)]
      have : retryCap - a = (retryCap - (a + 1)) + 1 := by omega
      rw [this]
      rfl
    · rw [if_neg hlt]
      have : retryCap - a = 0 := by omega
      rw [this]
      rfl

/-! ## Claim theorems -/

/-- An initial `DjvuView` as constructed: sequence zero, no handler, no
wait, no iframe, no pending link state. -/
def initViewState : ViewState :=
  { renderSeq := 0
    initWait := none
    handlerSeq := none
    iframeSeq := none
    pendingPage := none
    pendingHighlight := none
    activeMenu := false
    hasContent := false }

/-- Does `setEphemeralState` throw on this subpath?  Exactly when a `q`
token was captured and its percent-decoding (line 128, outside the
try/catch) fails. -/
def qDecodeThrows (s : List Char) : Bool :=
  match firstQCapture s with
  | none => false
  | some tok => (decodeURIComponentChars tok).isNone

/-- C2 (amended): for every page P ≥ 1 and every non-empty Unicode
string Q, decoding the fragment built by `showSelectionContextMenu`'s
percent-encoded UTF-8-safe base64 encoding with `setEphemeralState`'s
page/q parsing yields exactly page P and quote Q. -/
theorem locator_roundtrip_nonempty (P : Nat) (Q : List Char)
    (hP : 1 ≤ P) (hQ : Q ≠ []) :
    ∃ frag, fragmentModel P Q = some frag ∧
      setEphemeralStateModel frag = DecodeOutcome.ok (some P) (some Q) := by
  obtain ⟨h1, h2⟩ := setEphemeralState_fragment_roundtrip P Q hQ
  exact ⟨_, h1, h2⟩

/-- C2 (counterexample): for the empty quote the claim fails — the
`q=([^&]+)` capture needs at least one character, so the encoded
fragment for `(5, "")` decodes with a null quote, not the empty
string. -/
theorem locator_roundtrip_empty_fails :
    fragmentModel 5 [] = some "page=5&q=".data ∧
    setEphemeralStateModel "page=5&q=".data = DecodeOutcome.ok (some 5) none := by
  constructor
  · decide
  · decide

/-- C2 witness: instantiated at page 3 and quote "hé". -/
theorem locator_roundtrip_nonempty_witness :
    1 ≤ 3 ∧ (['h', 'é'] : List Char) ≠ [] ∧
    (∃ frag, fragmentModel 3 ['h', 'é'] = some frag ∧
      setEphemeralStateModel frag = DecodeOutcome.ok (some 3) (some ['h', 'é'])) :=
  ⟨by decide, by decide, locator_roundtrip_nonempty 3 ['h', 'é'] (by decide) (by decide)⟩

/-- C6 (amended): whenever decoding completes without throwing, the page
field is the leftmost `page=digits` capture parsed as decimal (null when
absent or non-numeric) and the captured `q` token's percent-decoding
succeeded; fields may be missing or reordered, extra pairs are ignored
unless their text itself matches `q=` or `page=`; a `q` token whose
base64/UTF-8 decoding fails yields a null quote;
`decode("page=42") = (42, null)` and `decode("") = (null, null)`. -/
theorem decode_robustness_amended (s : List Char) (page : Option Nat)
    (quote : Option (List Char))
    (hok : setEphemeralStateModel s = DecodeOutcome.ok page quote) :
    page = (firstPageCapture s).map decimalVal ∧
    qDecodeThrows s = false ∧
    setEphemeralStateModel "page=42".data = DecodeOutcome.ok (some 42) none ∧
    setEphemeralStateModel "".data = DecodeOutcome.ok none none ∧
    setEphemeralStateModel "q=abc".data = DecodeOutcome.ok none none ∧
    setEphemeralStateModel "q=aGk%3D&page=42".data =
      DecodeOutcome.ok (some 42) (some ['h', 'i']) ∧
    setEphemeralStateModel "page=42&x=1&y=2".data = DecodeOutcome.ok (some 42) none := by
  refine ⟨?_, ?_, by decide, by decide, by decide, by decide, by decide⟩
  · rw [setEphemeralStateModel] at hok
    cases hq : firstQCapture s with
    | none =>
      rw [hq] at hok
      cases hok
      rfl
    | some tok =>
      rw [hq] at hok
      dsimp only at hok
      cases hd : decodeURIComponentChars tok with
      | none =>
        rw [hd] at hok
        cases hok
      | some highlight =>
        rw [hd] at hok
        dsimp only at hok
        cases ha : atobChars highlight with
        | none =>
          rw [ha] at hok
          cases hok
          rfl
        | some bytes =>
          rw [ha] at hok
          dsimp only at hok
          cases he : decodeURIComponentChars (escapeChars (bytes.map Char.ofNat)) with
          | none =>
            rw [he] at hok
            cases hok
            rfl
          | some q =>
            rw [he] at hok
            cases hok
            rfl
  · rw [setEphemeralStateModel] at hok
    rw [qDecodeThrows]
    cases hq : firstQCapture s with
    | none => rfl
    | some tok =>
      rw [hq] at hok
      dsimp only at hok
      cases hd : decodeURIComponentChars tok with
      | none =>
        rw [hd] at hok
        cases hok
      | some highlight =>
        dsimp only
        rw [hd]
        rfl

/-- C6 (counterexample): as stated the claim fails — `decode("q=%")`
throws a `URIError` out of `setEphemeralState` (line 128's
`decodeURIComponent` is outside the try/catch), and the unrecognized
pair `seq=aGk%3D` is not ignored: its tail matches `q=([^&]+)` and
decodes to the quote "hi". -/
theorem decode_robustness_counterexample :
    setEphemeralStateModel "q=%".data = DecodeOutcome.thrown ∧
    setEphemeralStateModel "page=42&seq=aGk%3D".data =
      DecodeOutcome.ok (some 42) (some ['h', 'i']) := by
  constructor
  · decide
  · decide

/-- C6 witness: the amended theorem instantiated at the reordered
fragment `q=aGk%3D&page=42`. -/
theorem decode_robustness_amended_witness :
    setEphemeralStateModel "q=aGk%3D&page=42".data =
      DecodeOutcome.ok (some 42) (some ['h', 'i']) ∧
    (some 42 = (firstPageCapture "q=aGk%3D&page=42".data).map decimalVal ∧
      qDecodeThrows "q=aGk%3D&page=42".data = false ∧
      setEphemeralStateModel "page=42".data = DecodeOutcome.ok (some 42) none ∧
      setEphemeralStateModel "".data = DecodeOutcome.ok none none ∧
      setEphemeralStateModel "q=abc".data = DecodeOutcome.ok none none ∧
      setEphemeralStateModel "q=aGk%3D&page=42".data =
        DecodeOutcome.ok (some 42) (some ['h', 'i']) ∧
      setEphemeralStateModel "page=42&x=1&y=2".data =
        DecodeOutcome.ok (some 42) none) :=
  ⟨by decide,
    decode_robustness_amended "q=aGk%3D&page=42".data (some 42) (some ['h', 'i'])
      (by decide)⟩

/-- C3: when a file is opened, the resolved target page is the pending
link-fragment page if one exists, otherwise the stored position for the
document identity, otherwise the default page 1; `get` on an unknown
identity returns null (so the caller falls back to page 1).  In
particular stored 7 with link 3 opens page 3, stored 7 alone opens 7,
and neither opens 1. -/
theorem target_page_precedence (pending stored : Option Nat)
    (store : List (List Char × Nat)) (path : List Char)
    (hp : ∀ p ∈ pending, 1 ≤ p) (hs : ∀ p ∈ stored, 1 ≤ p)
    (hunknown : ∀ e ∈ store, e.1 ≠ path) :
    resolvedOpenPage pending stored =
      (match pending with
       | some p => p
       | none =>
         match stored with
         | some q => q
         | none => 1) ∧
    getFilePage store path = none ∧
    resolvedOpenPage (some 3) (some 7) = 3 ∧
    resolvedOpenPage none (some 7) = 7 ∧
    resolvedOpenPage none none = 1 := by
  refine ⟨?_, ?_, by decide, by decide, by decide⟩
  · cases pending with
    | some p =>
      have h1 := hp p (by simp)
      rw [resolvedOpenPage, onLoadFilePage, jsNullish, renderFinalPage, jsNullish,
        iframeConfigPage]
      rw [if_pos (by omega)]
      rfl
    | none =>
      cases stored with
      | some q =>
        have h1 := hs q (by simp)
        rw [resolvedOpenPage, onLoadFilePage, jsNullish, renderFinalPage, jsNullish,
          iframeConfigPage]
        rw [if_pos (by omega)]
        rfl
      | none => rfl
  · induction store with
    | nil => rfl
    | cons e rest ih =>
      obtain ⟨k, v⟩ := e
      have hk := hunknown (k, v) (by simp)
      rw [getFilePage, lookupPage, if_neg hk]
      exact ih (fun x hx => hunknown x (by simp [hx]))

/-- C3 witness: pending link page 3, stored page 7, and an unknown
identity in an empty store. -/
theorem target_page_precedence_witness :
    (∀ p ∈ (some 3 : Option Nat), 1 ≤ p) ∧
    (∀ p ∈ (some 7 : Option Nat), 1 ≤ p) ∧
    (∀ e ∈ ([] : List (List Char × Nat)), e.1 ≠ "doc.djvu".data) ∧
    (resolvedOpenPage (some 3) (some 7) =
      (match (some 3 : Option Nat) with
       | some p => p
       | none =>
         match (some 7 : Option Nat) with
         | some q => q
         | none => 1) ∧
    getFilePage [] "doc.djvu".data = none ∧
    resolvedOpenPage (some 3) (some 7) = 3 ∧
    resolvedOpenPage none (some 7) = 7 ∧
    resolvedOpenPage none none = 1) :=
  ⟨by decide, by decide, by simp,
    target_page_precedence (some 3) (some 7) [] "doc.djvu".data
      (by decide) (by decide) (by simp)⟩

/-- C7 (amended): every position write triggered by a `PAGE_CHANGED`
event updates the in-memory map and returns to the caller without
throwing, regardless of whether the persistence save succeeds; a save
failure leaves the returned promise rejected, and the code neither
catches nor logs that rejection (it is discarded by `void`). -/
theorem position_write_containment (store : List (List Char × Nat))
    (path : List Char) (page : Nat) (saveFailure : Option (List Char)) :
    (pageChangedSave store path page saveFailure).threwIntoCaller = false ∧
    (pageChangedSave store path page saveFailure).newStore =
      storePage store path page ∧
    getFilePage (pageChangedSave store path page saveFailure).newStore path =
      some page ∧
    ((pageChangedSave store path page saveFailure).promise =
      PromiseResult.resolved ↔ saveFailure = none) ∧
    (pageChangedSave store path page saveFailure).loggedByCode = false ∧
    (pageChangedSave store path page saveFailure).rejectionHandledByCode = false := by
  refine ⟨rfl, rfl, getFilePage_storePage store path page, ?_, rfl, rfl⟩
  cases saveFailure with
  | none => simp [pageChangedSave, setFilePageModel]
  | some e => simp [pageChangedSave, setFilePageModel]

/-- C7 (counterexample): the claim's "persistence failures are swallowed
and logged" is false — on a failing save the rejection is neither
handled nor logged by any code in the plugin: the call site is
`void this.plugin.setFilePage(...)` with no catch and no log. -/
theorem position_write_not_logged :
    (pageChangedSave [] "doc.djvu".data 3 (some "disk full".data)).promise =
      PromiseResult.rejected "disk full".data ∧
    (pageChangedSave [] "doc.djvu".data 3 (some "disk full".data)).loggedByCode =
      false ∧
    (pageChangedSave [] "doc.djvu".data 3
      (some "disk full".data)).rejectionHandledByCode = false ∧
    (pageChangedSave [] "doc.djvu".data 3 (some "disk full".data)).threwIntoCaller =
      false := by
  refine ⟨by decide, rfl, rfl, rfl⟩

/-- C9: `cleanup` is idempotent — a second call observes the
already-nulled handler and wait state, changes nothing, removes no
listener and clears no timer; it only re-empties the (already empty)
container.  Closing twice therefore cannot fault. -/
theorem cleanup_idempotent (v : ViewState) :
    (cleanup (cleanup v).1).1 = (cleanup v).1 ∧
    (cleanup (cleanup v).1).2 = [Action.emptyContent] := by
  constructor
  · rfl
  · rfl

/-- C1: after a new open request B mints its sequence via `render`, every
late response carrying a different (stale) sequence `a` is dropped: a
READY or ERROR from A's surface does not change the state and resolves
nothing (A's handler was removed, and B's handler ignores foreign
sources and guards `initWait` by its own sequence); A's payload-read
continuation hits the `seq !== renderSeq` guard and stops; A's settle
continuation posts into a detached iframe, so no stale LOAD is sent —
any LOAD that is sent comes from the surface B attached. -/
theorem stale_session_drop (v vB : ViewState) (seqB : Nat) (acts : List Action)
    (hB : startRender v = (vB, seqB, acts)) (a : Nat) (ha : a ≠ seqB)
    (m : List Char) (p : Option Nat) (hl : Option (List Char)) :
    deliver vB a Msg.ready = (vB, []) ∧
    deliver vB a (Msg.error m) = (vB, []) ∧
    resumeAfterBuffer vB a = (vB, false) ∧
    (resumeAfterSettle vB a p hl).2 = [] ∧
    (∀ s pg hl2, Action.loadSent s pg hl2 ∈ (resumeAfterSettle vB s pg hl2).2 →
      s = seqB) := by
  have hfields : vB.handlerSeq = some seqB ∧ vB.renderSeq = seqB ∧
      vB.iframeSeq = some seqB := by
    have := congrArg Prod.fst hB
    have h2 := congrArg (fun x => x.2.1) hB
    simp only [startRender, cleanup] at this h2
    subst this
    subst h2
    exact ⟨rfl, rfl, rfl⟩
  obtain ⟨hh, hr, hi⟩ := hfields
  refine ⟨?_, ?_, ?_, ?_, ?_⟩
  · rw [deliver, hh]
    dsimp only
    rw [if_pos ha]
  · rw [deliver, hh]
    dsimp only
    rw [if_pos ha]
  · rw [resumeAfterBuffer, if_pos (show a ≠ vB.renderSeq by rw [hr]; exact ha)]
  · rw [resumeAfterSettle]
    simp only [hi]
    rw [if_neg (by simp; omega)]
  · intro s pg hl2 hmem
    rw [resumeAfterSettle] at hmem
    simp only [hi] at hmem
    by_cases hsb : s = seqB
    · exact hsb
    · rw [if_neg (by simp [hsb]; tauto)] at hmem
      simp at hmem

/-- C1 witness: a fresh view, stale sequence 0 against the new
sequence 1. -/
theorem stale_session_drop_witness :
    startRender initViewState =
      ((startRender initViewState).1, (startRender initViewState).2.1,
        (startRender initViewState).2.2) ∧
    (0 : Nat) ≠ (startRender initViewState).2.1 ∧
    (deliver (startRender initViewState).1 0 Msg.ready =
        ((startRender initViewState).1, []) ∧
      deliver (startRender initViewState).1 0 (Msg.error []) =
        ((startRender initViewState).1, []) ∧
      resumeAfterBuffer (startRender initViewState).1 0 =
        ((startRender initViewState).1, false) ∧
      (resumeAfterSettle (startRender initViewState).1 0 none none).2 = [] ∧
      (∀ s pg hl2,
        Action.loadSent s pg hl2 ∈
          (resumeAfterSettle (startRender initViewState).1 s pg hl2).2 →
        s = (startRender initViewState).2.1)) :=
  ⟨rfl, by decide,
    stale_session_drop initViewState (startRender initViewState).1
      (startRender initViewState).2.1 (startRender initViewState).2.2
      rfl 0 (by decide) [] none none⟩

theorem openDocument_pending_none (v : ViewState)
    (eph : Option (Option Nat × Option (Option (List Char))))
    (s1 : Option Nat) :
    (openDocument v eph s1).1.pendingPage = none ∧
    (openDocument v eph s1).1.pendingHighlight = none := by
  rcases eph with _ | ⟨p, q⟩ <;>
  · rw [openDocument.eq_def]
    simp only [applyEphemeral, onLoadFileModel, startRender, cleanup,
      resumeAfterBuffer, resumeAfterSettle, jsNullish]
    simp

theorem openDocument_noEph_actions (v1 : ViewState) (s2 : Option Nat)
    (hpp : v1.pendingPage = none) (hph : v1.pendingHighlight = none) :
    (openDocument v1 none s2).2 =
      (match v1.handlerSeq with
       | some s => [Action.removeListener s]
       | none => []) ++
      (match v1.initWait with
       | some _ => [Action.clearInitTimeout]
       | none => []) ++
      [Action.emptyContent] ++ [Action.addListener (v1.renderSeq + 1)] ++
      [Action.loadSent (v1.renderSeq + 1) s2 none] := by
  rw [openDocument.eq_def]
  simp only [onLoadFileModel, startRender, cleanup, resumeAfterBuffer,
    resumeAfterSettle, jsNullish, hpp, hph]
  simp

/-- C10 (implicit): the pending link page and highlight are cleared both
by `onLoadFile` and again by the post-settle step of `render`, so a link
click's intent reaches at most one load: after any complete open the
pending fields are null, and a subsequent open without a new link sends
a LOAD whose page is exactly the stored position (and no highlight). -/
theorem link_intent_consumed_once (v : ViewState)
    (eph : Option (Option Nat × Option (Option (List Char))))
    (s1 s2 : Option Nat) (seq : Nat) (pg : Option Nat) (hl : Option (List Char))
    (hmem : Action.loadSent seq pg hl ∈
      (openDocument ((openDocument v eph s1).1) none s2).2) :
    pg = s2 ∧ hl = none ∧
    (openDocument v eph s1).1.pendingPage = none ∧
    (openDocument v eph s1).1.pendingHighlight = none ∧
    (onLoadFileModel v s1).1.pendingPage = none ∧
    (onLoadFileModel v s1).1.pendingHighlight = none ∧
    (resumeAfterSettle v seq pg hl).1.pendingPage = none ∧
    (resumeAfterSettle v seq pg hl).1.pendingHighlight = none := by
  obtain ⟨hpp, hph⟩ := openDocument_pending_none v eph s1
  rw [openDocument_noEph_actions _ s2 hpp hph] at hmem
  have hpg : pg = s2 ∧ hl = none := by
    cases hhs : ((openDocument v eph s1).1).handlerSeq <;>
      cases hiw : ((openDocument v eph s1).1).initWait <;>
      rw [hhs, hiw] at hmem <;> simp at hmem <;> tauto
  exact ⟨hpg.1, hpg.2, hpp, hph, rfl, rfl, rfl, rfl⟩

/-- C10 witness: two consecutive opens, the first with a link to page 3
over stored page 7, the second with no link over stored page 9; the
second LOAD carries page 9 and no highlight. -/
theorem link_intent_consumed_once_witness :
    Action.loadSent 2 (some 9) none ∈
      (openDocument ((openDocument initViewState (some (some 3, none))
        (some 7)).1) none (some 9)).2 ∧
    ((some 9 : Option Nat) = some 9 ∧ (none : Option (List Char)) = none ∧
      (openDocument initViewState (some (some 3, none)) (some 7)).1.pendingPage =
        none ∧
      (openDocument initViewState (some (some 3, none))
        (some 7)).1.pendingHighlight = none ∧
      (onLoadFileModel initViewState (some 7)).1.pendingPage = none ∧
      (onLoadFileModel initViewState (some 7)).1.pendingHighlight = none ∧
      (resumeAfterSettle initViewState 2 (some 9) none).1.pendingPage = none ∧
      (resumeAfterSettle initViewState 2 (some 9) none).1.pendingHighlight = none) :=
  ⟨by decide,
    link_intent_consumed_once initViewState (some (some 3, none)) (some 7)
      (some 9) 2 (some 9) none (by decide)⟩

/-- C5: the highlight routine retries only while zero text-layer
fragments exist, at a fixed 300 ms interval for at most 20 attempts,
then gives up silently; once fragments are present at attempt `j` the
loop stops there after exactly `j` scheduled retries, and a query with
no normalized substring match yields `noMatch` without throwing. -/
theorem bounded_highlight_retry (frags : Nat → List (List Char))
    (query : List Char) :
    retryDelayMs = 300 ∧ retryCap = 20 ∧
    (∀ d ∈ (tryHighlightModel frags query).2, d = retryDelayMs) ∧
    (tryHighlightModel frags query).2.length ≤ retryCap ∧
    ((∀ i, frags i = []) →
      tryHighlightModel frags query =
        (TryOutcome.gaveUp, List.replicate retryCap retryDelayMs)) ∧
    (∀ j ≤ retryCap, (∀ i < j, frags i = []) → frags j ≠ [] →
      tryHighlightModel frags query =
        (TryOutcome.finished (highlightMatch (frags j) query),
         List.replicate j retryDelayMs)) ∧
    (∀ j, subIndex (stripWsLower query)
        (stripWsLower ((frags j).flatMap id)) = none →
      highlightMatch (frags j) query = HighlightOutcome.noMatch) := by
  refine ⟨rfl, rfl, ?_, ?_, ?_, ?_, ?_⟩
  · exact (tryHighlightFuel_bound frags query (retryCap + 1) 0 0).2
  · have := (tryHighlightFuel_bound frags query (retryCap + 1) 0 0).1
    simpa using this
  · intro hall
    have := tryHighlightFuel_allEmpty frags query hall (retryCap + 1) 0 0
      (by omega) (by omega)
    simpa using this
  · intro j hj hempty hne
    have := tryHighlightFuel_first frags query j (retryCap + 1) 0 0
      (by intro i hi; simpa using hempty i hi)
      (by simpa using hne) (by omega) (by omega)
    simpa using this
  · intro j hnone
    rw [highlightMatch]
    rw [hnone]

/-- C8: for every non-empty selection text, page and document identity,
the builder emits the selection split on any newline convention, each
line prefixed as a quotation and trimmed of trailing whitespace, then a
blank line and the link `[[path#page=N&q=tok|name (page N)]]`; the
specified instance on page 5 of `doc.djvu` is checked literally. -/
theorem citation_builder_output (path name text : List Char) (page : Nat)
    (htext : text ≠ []) :
    (∃ tok, encodedTextModel text = some tok ∧
      linkWithHighlightModel path name page text =
        some ("[[".data ++ path ++ "#page=".data ++ natToDecimal page ++
          "&q=".data ++ tok ++ "|".data ++ name ++ " (page ".data ++
          natToDecimal page ++ ")]]".data) ∧
      quoteClipboardModel path name page text =
        some (List.intercalate ['\n']
            ((splitNl (normalizeNewlines text)).map
              (fun l => jsTrimEnd ('>' :: ' ' :: l))) ++
          ['\n', '\n'] ++
          ("[[".data ++ path ++ "#page=".data ++ natToDecimal page ++
            "&q=".data ++ tok ++ "|".data ++ name ++ " (page ".data ++
            natToDecimal page ++ ")]]".data)) ∧
      showSelectionContextMenuModel true true path name page text =
        some (text, quoteClipboardModel path name page text,
          linkWithHighlightModel path name page text)) ∧
    quoteClipboardModel "doc.djvu".data "doc.djvu".data 5
        "line one\nline two".data =
      some ("> line one\n> line two\n\n[[doc.djvu#page=5&q=bGluZSBvbmUKbGluZSB0d28%3D|doc.djvu (page 5)]]".data) := by
  refine ⟨⟨encodeURIComponentChars (btoaBytes (utf8Bytes text)),
    encodedTextModel_eq text, ?_, ?_, ?_⟩, by decide⟩
  · rw [linkWithHighlightModel, encodedTextModel_eq]
    rfl
  · rw [quoteClipboardModel, linkWithHighlightModel, encodedTextModel_eq]
    rfl
  · rw [showSelectionContextMenuModel, if_neg (by simp [htext])]

/-- C8 witness: the spec instance, selection `"line one\nline two"` on
page 5 of `doc.djvu`. -/
theorem citation_builder_output_witness :
    ("line one\nline two".data : List Char) ≠ [] ∧
    ((∃ tok, encodedTextModel "line one\nline two".data = some tok ∧
      linkWithHighlightModel "doc.djvu".data "doc.djvu".data 5
          "line one\nline two".data =
        some ("[[".data ++ "doc.djvu".data ++ "#page=".data ++ natToDecimal 5 ++
          "&q=".data ++ tok ++ "|".data ++ "doc.djvu".data ++ " (page ".data ++
          natToDecimal 5 ++ ")]]".data) ∧
      quoteClipboardModel "doc.djvu".data "doc.djvu".data 5
          "line one\nline two".data =
        some (List.intercalate ['\n']
            ((splitNl (normalizeNewlines "line one\nline two".data)).map
              (fun l => jsTrimEnd ('>' :: ' ' :: l))) ++
          ['\n', '\n'] ++
          ("[[".data ++ "doc.djvu".data ++ "#page=".data ++ natToDecimal 5 ++
            "&q=".data ++ tok ++ "|".data ++ "doc.djvu".data ++ " (page ".data ++
            natToDecimal 5 ++ ")]]".data)) ∧
      showSelectionContextMenuModel true true "doc.djvu".data "doc.djvu".data 5
          "line one\nline two".data =
        some ("line one\nline two".data,
          quoteClipboardModel "doc.djvu".data "doc.djvu".data 5
            "line one\nline two".data,
          linkWithHighlightModel "doc.djvu".data "doc.djvu".data 5
            "line one\nline two".data)) ∧
    quoteClipboardModel "doc.djvu".data "doc.djvu".data 5
        "line one\nline two".data =
      some ("> line one\n> line two\n\n[[doc.djvu#page=5&q=bGluZSBvbmUKbGluZSB0d28%3D|doc.djvu (page 5)]]".data)) :=
  ⟨by decide, citation_builder_output "doc.djvu".data "doc.djvu".data
    "line one\nline two".data 5 (by decide)⟩

/-- C4: when `highlightText` marks, it has found the leftmost occurrence
of the whitespace-stripped lower-cased query inside the
whitespace-stripped lower-cased fragment concatenation, mapped it back
to original offsets by counting non-whitespace characters, and marked
exactly the fragments whose span overlaps `[startChar, endChar)`; the
spec instance `["Hel", "lo wor", "ld"]` against `"HELLO  world"` marks
all three fragments. -/
theorem fuzzy_matching_locator (frags : List (List Char)) (query : List Char)
    (marks : List Bool) (sc ec : Nat)
    (hq : stripWsLower query ≠ [])
    (hm : highlightMatch frags query = HighlightOutcome.marked marks sc ec) :
    (∃ idx,
      subIndex (stripWsLower query) (stripWsLower (frags.flatMap id)) =
        some idx ∧
      (stripWsLower query).isPrefixOf
        ((stripWsLower (frags.flatMap id)).drop idx) = true ∧
      (∀ j < idx, (stripWsLower query).isPrefixOf
        ((stripWsLower (frags.flatMap id)).drop j) = false) ∧
      sc = (nonWsIdxFrom (frags.flatMap id) 0).getD idx 0 ∧
      ec = (nonWsIdxFrom (frags.flatMap id) 0).getD
          (idx + (stripWsLower query).length - 1) 0 + 1 ∧
      marks.length = frags.length ∧
      ∀ i < frags.length,
        marks.getD i false =
          decide ((fragStartsFrom frags 0).getD (i + 1)
              (frags.flatMap id).length > sc ∧
            (fragStartsFrom frags 0).getD i 0 < ec)) ∧
    highlightMatch [['H', 'e', 'l'], ['l', 'o', ' ', 'w', 'o', 'r'],
        ['l', 'd']] "HELLO  world".data =
      HighlightOutcome.marked [true, true, true] 0 11 := by
  refine ⟨?_, by decide⟩
  simp only [highlightMatch] at hm
  cases hsub : subIndex (stripWsLower query) (stripWsLower (frags.flatMap id)) with
  | none =>
    rw [hsub] at hm
    simp at hm
  | some idx =>
    rw [hsub] at hm
    simp only [HighlightOutcome.marked.injEq] at hm
    obtain ⟨hmarks, hsc, hec⟩ := hm
    subst hmarks
    subst hsc
    subst hec
    have hlen : 1 ≤ (stripWsLower query).length := by
      have := List.length_pos.mpr hq
      omega
    have hbound := subIndex_length_le _ _ _ hsub
    have hnws : (nonWsIdxFrom (frags.flatMap id) 0).length =
        (stripWsLower (frags.flatMap id)).length := by
      rw [nonWsIdxFrom_length, stripWsLower, List.length_map]
    have hmap := mapLoopGo_phase1 idx (stripWsLower query).length hlen
      (frags.flatMap id) 0 0 0 (frags.flatMap id).length (by omega)
      (by rw [hnws]; omega)
    refine ⟨idx, rfl, (subIndex_some_spec _ _ _ hsub).1,
      (subIndex_some_spec _ _ _ hsub).2, ?_, ?_, by simp, ?_⟩
    · rw [hmap]
      simp
    · rw [hmap]
      simp
    · intro i hi
      rw [List.getD_eq_getElem _ _ (by simpa using hi)]
      simp

/-- C4 witness: the spec instance, fragments `["Hel", "lo wor", "ld"]`
and query `"HELLO  world"`. -/
theorem fuzzy_matching_locator_witness :
    stripWsLower "HELLO  world".data ≠ [] ∧
    highlightMatch [['H', 'e', 'l'], ['l', 'o', ' ', 'w', 'o', 'r'], ['l', 'd']]
        "HELLO  world".data =
      HighlightOutcome.marked [true, true, true] 0 11 ∧
    ((∃ idx,
      subIndex (stripWsLower "HELLO  world".data)
          (stripWsLower (([['H', 'e', 'l'], ['l', 'o', ' ', 'w', 'o', 'r'],
            ['l', 'd']] : List (List Char)).flatMap id)) = some idx ∧
      (stripWsLower "HELLO  world".data).isPrefixOf
        ((stripWsLower (([['H', 'e', 'l'], ['l', 'o', ' ', 'w', 'o', 'r'],
          ['l', 'd']] : List (List Char)).flatMap id)).drop idx) = true ∧
      (∀ j < idx, (stripWsLower "HELLO  world".data).isPrefixOf
        ((stripWsLower (([['H', 'e', 'l'], ['l', 'o', ' ', 'w', 'o', 'r'],
          ['l', 'd']] : List (List Char)).flatMap id)).drop j) = false) ∧
      0 = (nonWsIdxFrom (([['H', 'e', 'l'], ['l', 'o', ' ', 'w', 'o', 'r'],
          ['l', 'd']] : List (List Char)).flatMap id) 0).getD idx 0 ∧
      11 = (nonWsIdxFrom (([['H', 'e', 'l'], ['l', 'o', ' ', 'w', 'o', 'r'],
          ['l', 'd']] : List (List Char)).flatMap id) 0).getD
          (idx + (stripWsLower "HELLO  world".data).length - 1) 0 + 1 ∧
      ([true, true, true] : List Bool).length =
        ([['H', 'e', 'l'], ['l', 'o', ' ', 'w', 'o', 'r'],
          ['l', 'd']] : List (List Char)).length ∧
      ∀ i < ([['H', 'e', 'l'], ['l', 'o', ' ', 'w', 'o', 'r'],
          ['l', 'd']] : List (List Char)).length,
        ([true, true, true] : List Bool).getD i false =
          decide ((fragStartsFrom ([['H', 'e', 'l'], ['l', 'o', ' ', 'w', 'o', 'r'],
              ['l', 'd']] : List (List Char)) 0).getD (i + 1)
              (([['H', 'e', 'l'], ['l', 'o', ' ', 'w', 'o', 'r'],
                ['l', 'd']] : List (List Char)).flatMap id).length > 0 ∧
            (fragStartsFrom ([['H', 'e', 'l'], ['l', 'o', ' ', 'w', 'o', 'r'],
              ['l', 'd']] : List (List Char)) 0).getD i 0 < 11)) ∧
    highlightMatch [['H', 'e', 'l'], ['l', 'o', ' ', 'w', 'o', 'r'],
        ['l', 'd']] "HELLO  world".data =
      HighlightOutcome.marked [true, true, true] 0 11) :=
  ⟨by decide, by decide,
    fuzzy_matching_locator
      [['H', 'e', 'l'], ['l', 'o', ' ', 'w', 'o', 'r'], ['l', 'd']]
      "HELLO  world".data [true, true, true] 0 11 (by decide) (by decide)⟩

end DjvuReader
